import Mathlib

/-!
# Verification of the nempy spot-market model builder (`src/nempy/markets.py`)

This file gives a shallow embedding, in Lean 4, of the parts of the `Spot`
market class of `nempy/markets.py` that the specification claims are about:
unit information, volume/price bids, FCAS joint-capacity constraints, generic
constraints, elastic (deficit-variable) constraint conversion, the id
counters, and the post-solve FCAS availability query.

Pandas DataFrames are embedded as lists of records; `np.float64` values are
embedded as exact rationals `ℚ`; python dicts keyed by strings are embedded as
association lists with an update-or-append operation.  Python exceptions are
embedded as an error code returned next to the (possibly partially mutated)
state, so that a builder call that raises midway can be distinguished from one
that leaves the state untouched.

The helper modules `variable_ids`, `objective_function`, `fcas_constraints`,
`elastic_constraints`, `unit_constraints` and `check` imported by
`markets.py` are not part of the sources provided; definitions for their
functions are modelled from the spec (and cross-checked against the doctest
examples inside `markets.py`) and are marked `Modelled from the spec:` in
their doc comments.
-/

namespace Nempy

/-- Relational type of a constraint row: the strings `<=`, `=`, `>=` of the
pandas `type` column. -/
inductive Rel where
  | le
  | eq
  | ge
deriving DecidableEq, Repr

/-- Error codes for the python exceptions that the embedded builder calls can
surface.  `emptyMax` stands for the `ValueError` raised by python's builtin
`max` on an empty sequence (it is not a validation error: it escapes from the
middle of a builder body).  `unboundLocal` stands for `UnboundLocalError`
(reading `rhs_and_type` after the un-raised `ModelBuildError` of
`make_constraints_elastic`), and `keyError` for a pandas `KeyError` on a
missing column. -/
inductive Err where
  | missingUnitInfo
  | missingColumn
  | columnValues
  | repeatedRow
  | modelBuild
  | bidsNotMonotonic
  | unboundLocal
  | keyError
  | columnDataType
  | unsupportedElasticity
  | emptyMax
deriving DecidableEq, Repr

/-- Python dict assignment `d[k] = v` on an association list: replace the
first binding of `k`, or append a new binding when `k` is absent. -/
def updateKey {α : Type} : List (String × α) → String → α → List (String × α)
  | [], k, v => [(k, v)]
  | (k', v') :: rest, k, v =>
      if k' = k then (k, v) :: rest else (k', v') :: updateKey rest k v

theorem lookup_cons {α : Type} (k a : String) (b : α) (l : List (String × α)) :
    List.lookup k ((a, b) :: l) = if k = a then some b else List.lookup k l := by
  by_cases h : k = a
  · simp [List.lookup, h]
  · simp [List.lookup, h, beq_eq_false_iff_ne.mpr h]

theorem lookup_updateKey_self {α : Type} (l : List (String × α)) (k : String) (v : α) :
    (updateKey l k v).lookup k = some v := by
  induction l with
  | nil => simp [updateKey, lookup_cons]
  | cons p rest ih =>
      by_cases h : p.1 = k
      · simp [updateKey, h, lookup_cons]
      · simp only [updateKey]
        rw [if_neg h]
        rw [show (p.1, p.2) = p from rfl] at *
        cases p with
        | mk a b =>
            rw [lookup_cons, if_neg (fun hk => h hk.symm)]
            exact ih

theorem lookup_updateKey_other {α : Type} (l : List (String × α)) (k k' : String) (v : α)
    (h : k' ≠ k) : (updateKey l k v).lookup k' = l.lookup k' := by
  induction l with
  | nil => simp [updateKey, lookup_cons, h, List.lookup, beq_eq_false_iff_ne.mpr h]
  | cons p rest ih =>
      cases p with
      | mk a b =>
          by_cases hp : a = k
          · subst hp
            simp [updateKey, lookup_cons, h]
          · simp only [updateKey]
            rw [if_neg hp]
            rw [lookup_cons, lookup_cons]
            by_cases hk' : k' = a
            · simp [hk']
            · rw [if_neg hk', if_neg hk']
              exact ih

/-- No two elements of the list share an `f`-key (the `check.repeated_rows`
validation). -/
def nodupOn {α β : Type} [BEq β] (f : α → β) : List α → Bool
  | [] => true
  | x :: xs => !(xs.any (fun y => f y == f x)) && nodupOn f xs

theorem nodupOn_iff {α β : Type} [BEq β] [LawfulBEq β] (f : α → β) (l : List α) :
    nodupOn f l = true ↔ (l.map f).Nodup := by
  induction l with
  | nil => simp [nodupOn]
  | cons x xs ih =>
      simp only [nodupOn, Bool.and_eq_true, Bool.not_eq_true', List.map_cons, List.nodup_cons,
        ih, List.mem_map, List.any_eq_false, not_exists, not_and]
      constructor
      · rintro ⟨h1, h2⟩
        exact ⟨fun y hy hfy => h1 y hy (beq_iff_eq.mpr hfy), h2⟩
      · rintro ⟨h1, h2⟩
        exact ⟨fun y hy hfy => h1 y hy (beq_iff_eq.mp hfy), h2⟩

/-- The prices of consecutive bands never decrease
(`check.bid_prices_monotonic_increasing`). -/
def nondecreasing : List ℚ → Bool
  | [] => true
  | [_] => true
  | x :: y :: rest => decide (x ≤ y) && nondecreasing (y :: rest)

/-- Minimum of a list of rationals (the list is nonempty wherever this is
used; on `[]` we return `0`, mirroring no pandas behaviour — `groupby.min`
never aggregates an empty group). -/
def minOfList : List ℚ → ℚ
  | [] => 0
  | [x] => x
  | x :: y :: rest => min x (minOfList (y :: rest))

theorem minOfList_le {l : List ℚ} {x : ℚ} (hx : x ∈ l) : minOfList l ≤ x := by
  induction l with
  | nil => cases hx
  | cons a rest ih =>
      cases rest with
      | nil =>
          rcases List.mem_singleton.mp hx with rfl
          simp [minOfList]
      | cons b rest' =>
          rcases List.mem_cons.mp hx with rfl | hmem
          · exact min_le_left _ _
          · exact le_trans (min_le_right _ _) (ih hmem)

theorem minOfList_mem {l : List ℚ} (h : l ≠ []) : minOfList l ∈ l := by
  induction l with
  | nil => exact absurd rfl h
  | cons a rest ih =>
      cases rest with
      | nil => simp [minOfList]
      | cons b rest' =>
          rcases le_or_lt a (minOfList (b :: rest')) with hle | hlt
          · simp [minOfList, min_eq_left hle]
          · have hmem := ih (by simp)
            have : minOfList (a :: b :: rest') = minOfList (b :: rest') := by
              simp [minOfList, min_eq_right (le_of_lt hlt)]
            rw [this]
            exact List.mem_cons_of_mem _ hmem

/-! ## Unit information (`Spot.set_unit_info`, markets.py lines 92-94) -/

/-- A row of the `unit_info` DataFrame.  `loss_factor` is meaningful only
when the table's `hasLossFactor` flag is set (column presence is a property
of the table, not of a row, in pandas). -/
structure UnitInfoRow where
  unit : String
  region : String
  loss_factor : ℚ
  dispatch_type : String
deriving DecidableEq, Repr

/-- The `unit_info` DataFrame: its rows together with which of the two
optional columns are present. -/
structure UnitInfoTable where
  rows : List UnitInfoRow
  hasLossFactor : Bool
  hasDispatchType : Bool
deriving DecidableEq, Repr

/-- Body of `Spot.set_unit_info` (markets.py lines 92-94): when the
`dispatch_type` column is absent it is added with every entry `'generator'`;
the resulting table is stored as `self.unit_info`. -/
def set_unit_info_table (u : UnitInfoTable) : UnitInfoTable :=
  if u.hasDispatchType then u
  else { rows := u.rows.map (fun r => { r with dispatch_type := "generator" }),
         hasLossFactor := u.hasLossFactor,
         hasDispatchType := true }

/-- `make_load_dispatch_negative` from `Spot._get_net_unit_dispatch_by_region`
(markets.py lines 2681-2684). -/
def make_load_dispatch_negative (dispatch_type : String) (dispatch : ℚ) : ℚ :=
  if dispatch_type = "load" then -dispatch else dispatch

/-- A row of the unit dispatch table returned by `Spot.get_unit_dispatch`. -/
structure DispatchRow where
  unit : String
  service : String
  dispatch : ℚ
deriving DecidableEq, Repr

/-- Insert a key at the back if it is not already present: the order in which
pandas `groupby` first meets each key. -/
def insertKey {α : Type} [BEq α] (ks : List α) (k : α) : List α :=
  if ks.contains k then ks else ks ++ [k]

/-- The distinct keys of a list of rows, in first-occurrence order. -/
def keysOf {α β : Type} [BEq β] (key : α → β) (l : List α) : List β :=
  l.foldl (fun ks e => insertKey ks (key e)) []

/-- `Spot._get_net_unit_dispatch_by_region` (markets.py lines 2674-2690):
keep energy rows of the unit dispatch, join with `unit_info` on `unit`,
negate the dispatch of `'load'` units, and sum dispatch by region. -/
def net_unit_dispatch_by_region (info : List UnitInfoRow) (unit_dispatch : List DispatchRow) :
    List (String × ℚ) :=
  let energy := unit_dispatch.filter (fun d => d.service = "energy")
  let merged := energy.flatMap (fun d =>
    (info.filter (fun r => r.unit = d.unit)).map
      (fun r => (r.region, make_load_dispatch_negative r.dispatch_type d.dispatch)))
  (keysOf Prod.fst merged).map (fun reg =>
    (reg, ((merged.filter (fun p => p.1 = reg)).map Prod.snd).sum))

/-- The same summary with the load-negation step removed: what
`_get_net_unit_dispatch_by_region` would compute if it treated every unit as
a generator. -/
def net_unit_dispatch_no_negation (info : List UnitInfoRow) (unit_dispatch : List DispatchRow) :
    List (String × ℚ) :=
  let energy := unit_dispatch.filter (fun d => d.service = "energy")
  let merged := energy.flatMap (fun d =>
    (info.filter (fun r => r.unit = d.unit)).map (fun r => (r.region, d.dispatch)))
  (keysOf Prod.fst merged).map (fun reg =>
    (reg, ((merged.filter (fun p => p.1 = reg)).map Prod.snd).sum))

/-! ## Bid decision variables (`Spot.set_unit_volume_bids`, markets.py lines 215-219) -/

/-- One bid band of a volume bid row: the band number (the pandas column
name `'1'` … `'10'`) and the offered volume in MW. -/
structure BidBand where
  band : ℕ
  volume : ℚ
deriving DecidableEq, Repr

/-- A row of the `volume_bids` DataFrame. -/
structure VolumeBidRow where
  unit : String
  service : String
  bands : List BidBand
deriving DecidableEq, Repr

/-- A decision variable created for one bid band. -/
structure BidVar where
  variable_id : ℕ
  unit : String
  service : String
  capacity_band : ℕ
  lower_bound : ℚ
  upper_bound : ℚ
deriving DecidableEq, Repr

/-- Modelled from the spec: the band loop of `variable_ids.bids`, whose
module is not under src.  Per spec §4.3 and the `set_unit_volume_bids`
docstring (markets.py lines 106-108), each band with a non-zero volume gets
one continuous variable with bounds `[0, volume]` and the next free id;
a band with volume 0 MW gets no variable and consumes no id. -/
def bandVars (u s : String) : List BidBand → ℕ → List BidVar × ℕ
  | [], n => ([], n)
  | b :: bs, n =>
      if b.volume = 0 then bandVars u s bs n
      else
        let rest := bandVars u s bs (n + 1)
        (⟨n, u, s, b.band, 0, b.volume⟩ :: rest.1, rest.2)

/-- Modelled from the spec: `variable_ids.bids` (module not under src).
Walks the volume bid rows in order, allocating consecutive variable ids to
the non-zero bands; returns the variables and the next free id. -/
def bids (rows : List VolumeBidRow) (n : ℕ) : List BidVar × ℕ :=
  match rows with
  | [] => ([], n)
  | r :: rs =>
      let h := bandVars r.unit r.service r.bands n
      let t := bids rs h.2
      (h.1 ++ t.1, t.2)

/-- Drop the zero-volume bands of a volume bid row. -/
def dropZeroBands (r : VolumeBidRow) : VolumeBidRow :=
  { r with bands := r.bands.filter (fun b => ¬ b.volume = 0) }

/-- Count of the non-zero bands of a list of rows. -/
def nonZeroBandCount (rows : List VolumeBidRow) : ℕ :=
  (rows.map (fun r => (r.bands.filter (fun b => ¬ b.volume = 0)).length)).sum

/-! ## Objective costs of bids (`Spot.set_unit_price_bids`, markets.py lines 330-335) -/

/-- One price band of a price bid row. -/
structure PriceBand where
  band : ℕ
  price : ℚ
deriving DecidableEq, Repr

/-- A row of the `price_bids` DataFrame. -/
structure PriceBidRow where
  unit : String
  service : String
  bands : List PriceBand
deriving DecidableEq, Repr

/-- A row of `objective_function_components['bids']`. -/
structure ObjRow where
  variable_id : ℕ
  unit : String
  service : String
  capacity_band : ℕ
  cost : ℚ
deriving DecidableEq, Repr

/-- The bid price of `(unit, service)` in a given band, when offered. -/
def priceOf (price_bids : List PriceBidRow) (u s : String) (band : ℕ) : Option ℚ :=
  match price_bids.find? (fun r => r.unit = u ∧ r.service = s) with
  | none => none
  | some r => (r.bands.find? (fun b => b.band = band)).map (fun b => b.price)

/-- Modelled from the spec: `objective_function.bids` (module not under
src).  Joins the bid decision variables with the price bids on unit, service
and band; the cost of each matched variable is the bid price (variables
without a matching price are dropped by the inner join). -/
def objective_function_bids (vars : List BidVar) (price_bids : List PriceBidRow) : List ObjRow :=
  vars.filterMap (fun v =>
    (priceOf price_bids v.unit v.service v.capacity_band).map
      (fun p => ⟨v.variable_id, v.unit, v.service, v.capacity_band, p⟩))

/-- The loss factor recorded for a unit in `unit_info`. -/
def lossFactorOf (info : List UnitInfoRow) (u : String) : Option ℚ :=
  (info.find? (fun r => r.unit = u)).map (fun r => r.loss_factor)

/-- Modelled from the spec: `objective_function.scale_by_loss_factors`
(module not under src).  Refers each cost to the regional reference node by
dividing it by the unit's loss factor, `cost_rrn = price / loss_factor`
(spec §4.3); rows whose unit has no `unit_info` entry are dropped by the
join. -/
def scale_by_loss_factors (obj : List ObjRow) (info : List UnitInfoRow) : List ObjRow :=
  obj.filterMap (fun o =>
    (lossFactorOf info o.unit).map (fun lf => { o with cost := o.cost / lf }))

/-! ## FCAS trapezium constraints
(`Spot.set_joint_capacity_constraints`, markets.py lines 1144-1148, and
`Spot.set_energy_and_regulation_capacity_constraints`, lines 1250-1254) -/

/-- A row of a FCAS trapezium DataFrame (contingency or regulation). -/
structure Trapezium where
  unit : String
  service : String
  max_availability : ℚ
  enablement_min : ℚ
  low_break_point : ℚ
  high_break_point : ℚ
  enablement_max : ℚ
deriving DecidableEq, Repr

/-- A row of a `constraints_rhs_and_type` (or
`market_constraints_rhs_and_type`) table.  The string tag columns differ by
constraint family in pandas (generic rows carry `set`, fcas rows carry
`unit`/`service`, interpolation rows carry `interconnector`); unused tags
are embedded as `""`. -/
structure RhsRow where
  set : String
  unit : String
  service : String
  interconnector : String
  constraint_id : ℕ
  type : Rel
  rhs : ℚ
deriving DecidableEq, Repr

/-- A row of a `constraint_to_variable_map['unit_level']` table. -/
structure CoeffRow where
  constraint_id : ℕ
  unit : String
  service : String
  coefficient : ℚ
deriving DecidableEq, Repr

/-- Modelled from the spec: the pair of constraints
`fcas_constraints.joint_capacity_constraints` (module not under src) derives
from one contingency trapezium row, per spec §4.5 and the doctest at
markets.py lines 1090-1102: an upper constraint
`energy + slope_upper·service + raise_reg ≤ enablement_max` with
`slope_upper = (enablement_max − high_break_point)/max_availability`, and a
lower constraint `energy − slope_lower·service − lower_reg ≥ enablement_min`
with `slope_lower = (low_break_point − enablement_min)/max_availability`. -/
def jointCapacityRhsBlock (n : ℕ) (t : Trapezium) : List RhsRow :=
  [⟨"", t.unit, t.service, "", n, Rel.le, t.enablement_max⟩,
   ⟨"", t.unit, t.service, "", n + 1, Rel.ge, t.enablement_min⟩]

/-- The six unit-level coefficient rows of one contingency trapezium pair. -/
def jointCapacityCoeffBlock (n : ℕ) (t : Trapezium) : List CoeffRow :=
  [⟨n, t.unit, "energy", 1⟩,
   ⟨n, t.unit, t.service, (t.enablement_max - t.high_break_point) / t.max_availability⟩,
   ⟨n, t.unit, "raise_reg", 1⟩,
   ⟨n + 1, t.unit, "energy", 1⟩,
   ⟨n + 1, t.unit, t.service, -((t.low_break_point - t.enablement_min) / t.max_availability)⟩,
   ⟨n + 1, t.unit, "lower_reg", -1⟩]

/-- The `rhs_and_type` rows over all trapezium rows. -/
def jointCapacityRhs : List Trapezium → ℕ → List RhsRow
  | [], _ => []
  | t :: ts, n => jointCapacityRhsBlock n t ++ jointCapacityRhs ts (n + 2)

/-- The unit-level coefficient rows over all trapezium rows. -/
def jointCapacityCoeff : List Trapezium → ℕ → List CoeffRow
  | [], _ => []
  | t :: ts, n => jointCapacityCoeffBlock n t ++ jointCapacityCoeff ts (n + 2)

/-- Modelled from the spec: `fcas_constraints.joint_capacity_constraints`
(module not under src): one upper/lower constraint pair per trapezium row,
constraint ids consecutive from the given next id. -/
def joint_capacity_constraints (ts : List Trapezium) (n : ℕ) : List RhsRow × List CoeffRow :=
  (jointCapacityRhs ts n, jointCapacityCoeff ts n)

/-- Modelled from the spec: the pair of constraints
`fcas_constraints.energy_and_regulation_capacity_constraints` (module not
under src) derives from one regulation trapezium row, per spec §4.5 and the
doctest at markets.py lines 1198-1208: the same slope-scaled upper/lower
envelope, without regulation cross-terms. -/
def energyRegCoeffBlock (n : ℕ) (t : Trapezium) : List CoeffRow :=
  [⟨n, t.unit, "energy", 1⟩,
   ⟨n, t.unit, t.service, (t.enablement_max - t.high_break_point) / t.max_availability⟩,
   ⟨n + 1, t.unit, "energy", 1⟩,
   ⟨n + 1, t.unit, t.service, -((t.low_break_point - t.enablement_min) / t.max_availability)⟩]

/-- The unit-level coefficient rows of the regulation envelope, over all
trapezium rows. -/
def energyRegCoeff : List Trapezium → ℕ → List CoeffRow
  | [], _ => []
  | t :: ts, n => energyRegCoeffBlock n t ++ energyRegCoeff ts (n + 2)

/-- Modelled from the spec:
`fcas_constraints.energy_and_regulation_capacity_constraints` (module not
under src): the `rhs_and_type` rows reuse the contingency shape (upper `<=
enablement_max`, lower `>= enablement_min`). -/
def energy_and_regulation_capacity_constraints (ts : List Trapezium) (n : ℕ) :
    List RhsRow × List CoeffRow :=
  (jointCapacityRhs ts n, energyRegCoeff ts n)

/-! ## Elastic constraints (`Spot.make_constraints_elastic`, markets.py lines 1999-2037) -/

/-- A deficit decision variable; `upper_bound = none` embeds `np.inf`. -/
structure DeficitVar where
  variable_id : ℕ
  lower_bound : ℚ
  upper_bound : Option ℚ
  cost : ℚ
deriving DecidableEq, Repr

/-- A row of an `lhs_coefficients` table. -/
structure LhsRow where
  variable_id : ℕ
  constraint_id : ℕ
  coefficient : ℚ
deriving DecidableEq, Repr

/-- The python values accepted (or not) by the `violation_cost` argument of
`make_constraints_elastic`: the string `'market_ceiling_price'`, an int or
float, a DataFrame with `set` and `cost` columns, or any other value
(a bool, another string, a list, …), which no branch of the method
handles. -/
inductive ViolationCost where
  | ceiling
  | num (c : ℚ)
  | table (rows : List (String × ℚ))
  | unsupported
deriving DecidableEq, Repr

/-- Allocation loop of the deficit variables: row `i` gets variable id
`n + i`, bounds `[0, ∞)`, objective cost the row's cost, and one lhs entry
against its constraint with coefficient `+1` for a `>=` row and `-1` for a
`<=` row, as the doctest at markets.py lines 1942-1945 prints (set A `>=`,
constraint id 0, coefficient `1.0`; set B `<=`, constraint id 1,
coefficient `-1.0`). -/
def deficitRows : List (RhsRow × ℚ) → ℕ → List DeficitVar × List LhsRow
  | [], _ => ([], [])
  | r :: rs, n =>
      let rest := deficitRows rs (n + 1)
      (⟨n, 0, none, r.2⟩ :: rest.1,
       ⟨n, r.1.constraint_id, if r.1.type = Rel.ge then 1 else -1⟩ :: rest.2)

/-- Modelled from the spec: `elastic_constraints.create_deficit_variables`
(module not under src).  It creates one deficit variable per constraint,
bounded `[0, ∞)`, with objective cost the supplied cost and one lhs
incidence entry of coefficient `+1` for `>=` and `−1` for `<=` (the sign
convention the in-src doctest at markets.py lines 1942-1945 prints), and
fails with `UnsupportedElasticityError` on a `=` constraint.  The input is
`none` when the caller never added the `cost` column (the unsupported
`violation_cost` branch of markets.py line 2029 constructs its `ValueError`
without raising it), in which case selecting the column raises a pandas
`KeyError`. -/
def create_deficit_variables :
    Option (List (RhsRow × ℚ)) → ℕ → Except Err (List DeficitVar × List LhsRow)
  | none, _ => .error .keyError
  | some rows, n =>
      if rows.any (fun r => r.1.type == Rel.eq) then .error .unsupportedElasticity
      else .ok (deficitRows rows n)

/-! ## Interconnectors (`Spot.set_interconnectors`, markets.py lines 1348-1360,
and `Spot.set_interconnector_losses`, lines 1552-1597) -/

/-- A row of `interconnector_directions_and_limits`. -/
structure InterRow where
  interconnector : String
  to_region : String
  from_region : String
  max : ℚ
  min : ℚ
deriving DecidableEq, Repr

/-- A directional flow variable of one interconnector. -/
structure InterVar where
  variable_id : ℕ
  interconnector : String
  lower_bound : ℚ
  upper_bound : ℚ
deriving DecidableEq, Repr

/-- A loss or interpolation-weight variable: only its id and interconnector
tag are tracked (no claim depends on the loss values themselves). -/
structure SimpleVar where
  variable_id : ℕ
  interconnector : String
deriving DecidableEq, Repr

/-- A row of the `loss_functions` DataFrame.  The `loss_function` callable
column is omitted from the embedding: no claim depends on evaluated
losses. -/
structure LossFnRow where
  interconnector : String
  from_region_loss_share : ℚ
deriving DecidableEq, Repr

/-- A row of the `interpolation_break_points` DataFrame. -/
structure BreakPointRow where
  interconnector : String
  loss_segment : ℕ
  break_point : ℚ
deriving DecidableEq, Repr

/-- A row of `constraints_dynamic_rhs_and_type`: a constraint whose rhs is
the solved value of the referenced variable. -/
structure DynamicRhsRow where
  constraint_id : ℕ
  rhs_variable_id : ℕ
  type : Rel
deriving DecidableEq, Repr

/-- Pair each element of a list with consecutive ids starting at `n`: the id
allocation pattern `hf.save_index` applies (spec §4.1: `allocate(n)` reserves
consecutive ids starting at the current counter). -/
def withIds {α : Type} : ℕ → List α → List (ℕ × α)
  | _, [] => []
  | n, a :: as => (n, a) :: withIds (n + 1) as

/-- Maximum of a list of ids, `0` on the empty list (every use is guarded to
nonempty lists, matching python's `max` which raises on an empty sequence
and pandas `.max()` which yields NaN there). -/
def maxOfIds : List ℕ → ℕ
  | [] => 0
  | x :: xs => Nat.max x (maxOfIds xs)

/-- Flow variable id of an interconnector (for the dynamic rhs reference). -/
def flowVarId (vars : List InterVar) (i : String) : ℕ :=
  ((vars.find? (fun v => v.interconnector == i)).map (fun v => v.variable_id)).getD 0

/-- Loss variable id of an interconnector (for the dynamic rhs reference). -/
def lossVarId (vars : List SimpleVar) (i : String) : ℕ :=
  ((vars.find? (fun v => v.interconnector == i)).map (fun v => v.variable_id)).getD 0

/-- Modelled from the spec: `inter.create_loss_variables` (module not under
src) — one loss variable per `loss_functions` row, consecutive ids. -/
def create_loss_variables (lf : List LossFnRow) (n : ℕ) : List SimpleVar :=
  (withIds n lf).map (fun p => ⟨p.1, p.2.interconnector⟩)

/-- Modelled from the spec: `inter.create_weights` (module not under src) —
one interpolation-weight variable per break point row, consecutive ids. -/
def create_weights (bp : List BreakPointRow) (n : ℕ) : List SimpleVar :=
  (withIds n bp).map (fun p => ⟨p.1, p.2.interconnector⟩)

/-- Modelled from the spec: `inter.create_weights_must_sum_to_one` (module
not under src) — one `= 1` constraint per interconnector. -/
def create_weights_must_sum_to_one (inters : List String) (n : ℕ) : List RhsRow :=
  (withIds n inters).map (fun p => ⟨"", "", "", p.2, p.1, Rel.eq, 1⟩)

/-- Modelled from the spec: `inter.link_weights_to_inter_flow` (module not
under src) — one dynamic-rhs `=` constraint per interconnector whose rhs is
the flow variable. -/
def link_weights_to_inter_flow (ivars : List InterVar) (inters : List String) (n : ℕ) :
    List DynamicRhsRow :=
  (withIds n inters).map (fun p => ⟨p.1, flowVarId ivars p.2, Rel.eq⟩)

/-- Modelled from the spec: `inter.link_inter_loss_to_interpolation_weights`
(module not under src) — one dynamic-rhs `=` constraint per interconnector
whose rhs is the loss variable. -/
def link_inter_loss_to_interpolation_weights (lvars : List SimpleVar)
    (inters : List String) (n : ℕ) : List DynamicRhsRow :=
  (withIds n inters).map (fun p => ⟨p.1, lossVarId lvars p.2, Rel.eq⟩)

/-- A row of the `generic_constraint_parameters` DataFrame
(`Spot.set_generic_constraints`). -/
structure GenericRow where
  set : String
  type : Rel
  rhs : ℚ
deriving DecidableEq, Repr

/-! ## The market state and the builder operations -/

/-- The mutable state of a `Spot` instance, restricted to the tables the
claims are about.  The python `decision_variables`, `lhs_coefficients` and
`objective_function_components` dicts hold DataFrames of different schemas
under different keys; they are embedded as one typed field per schema, with
the `key + '_deficit'` families kept as association lists. -/
structure Market where
  dispatch_interval : ℚ
  market_ceiling_price : ℚ
  market_floor_price : ℚ
  unit_info : Option UnitInfoTable
  bid_vars : Option (List BidVar)
  interconnector_directions : Option (List InterRow)
  interconnector_loss_shares : Option (List LossFnRow)
  interconnector_vars : Option (List InterVar)
  loss_vars : Option (List SimpleVar)
  weight_vars : Option (List SimpleVar)
  deficit_vars : List (String × List DeficitVar)
  objective_bids : Option (List ObjRow)
  objective_deficit : List (String × List (ℕ × ℚ))
  lhs_deficit : List (String × List LhsRow)
  constraints_rhs_and_type : List (String × List RhsRow)
  market_constraints_rhs_and_type : List (String × List RhsRow)
  constraints_dynamic_rhs_and_type : List (String × List DynamicRhsRow)
  unit_level_maps : List (String × List CoeffRow)
  next_variable_id : ℕ
  next_constraint_id : ℕ
deriving DecidableEq, Repr

/-- The fresh market of `Spot.__init__` (markets.py lines 11-29). -/
def freshMarket : Market :=
  { dispatch_interval := 5, market_ceiling_price := 14000, market_floor_price := -1000,
    unit_info := none, bid_vars := none,
    interconnector_directions := none, interconnector_loss_shares := none,
    interconnector_vars := none, loss_vars := none, weight_vars := none,
    deficit_vars := [], objective_bids := none, objective_deficit := [], lhs_deficit := [],
    constraints_rhs_and_type := [], market_constraints_rhs_and_type := [],
    constraints_dynamic_rhs_and_type := [], unit_level_maps := [],
    next_variable_id := 0, next_constraint_id := 0 }

/-- `Spot.set_unit_info` (markets.py lines 92-94). -/
def set_unit_info (st : Market) (u : UnitInfoTable) : Market :=
  { st with unit_info := some (set_unit_info_table u) }

/-- `Spot.set_unit_volume_bids` (markets.py lines 215-219).  The `check`
decorators (module not under src; modelled from the docstring's Raises
section) run before the body and reject repeated `(unit, service)` rows,
negative volumes, and bids of units without unit info.  On an all-zero bid
table the body's `max` of the empty id column raises `ValueError` *after*
the variables table has been assigned, so that error leaves a partially
mutated state. -/
def set_unit_volume_bids (st : Market) (volume_bids : List VolumeBidRow) : Market × Option Err :=
  match st.unit_info with
  | none => (st, some .missingUnitInfo)
  | some info =>
      if !nodupOn (fun r => (r.unit, r.service)) volume_bids then (st, some .repeatedRow)
      else if volume_bids.any (fun r => r.bands.any (fun b => decide (b.volume < 0))) then
        (st, some .columnValues)
      else if !volume_bids.all (fun r => info.rows.any (fun i => i.unit == r.unit)) then
        (st, some .missingUnitInfo)
      else
        let p := bids volume_bids st.next_variable_id
        let st1 := { st with bid_vars := some p.1 }
        if p.1.isEmpty then (st1, some .emptyMax)
        else ({ st1 with next_variable_id := maxOfIds (p.1.map (·.variable_id)) + 1 }, none)

/-- `Spot.set_unit_price_bids` (markets.py lines 330-335), with the `check`
decorators (energy bid ids must exist, no repeated rows, bid prices
monotonic increasing) modelled as entry guards. -/
def set_unit_price_bids (st : Market) (price_bids : List PriceBidRow) : Market × Option Err :=
  match st.bid_vars with
  | none => (st, some .modelBuild)
  | some vars =>
      if !nodupOn (fun r => (r.unit, r.service)) price_bids then (st, some .repeatedRow)
      else if !price_bids.all (fun r => nondecreasing (r.bands.map (fun b => b.price))) then
        (st, some .bidsNotMonotonic)
      else
        match st.unit_info with
        | none => (st, some .modelBuild)
        | some info =>
            let obj := objective_function_bids vars price_bids
            let obj := if info.hasLossFactor then scale_by_loss_factors obj info.rows else obj
            ({ st with objective_bids := some obj }, none)

/-- `Spot.set_joint_capacity_constraints` (markets.py lines 1144-1148), with
the `check` decorators modelled as entry guards (note `high_break_point` is
deliberately absent from the not-negative check, markets.py lines
1051-1052). -/
def set_joint_capacity_constraints (st : Market) (ct : List Trapezium) : Market × Option Err :=
  if !nodupOn (fun t => (t.unit, t.service)) ct then (st, some .repeatedRow)
  else if ct.any (fun t => decide (t.max_availability < 0) || decide (t.enablement_min < 0) ||
      decide (t.low_break_point < 0) || decide (t.enablement_max < 0)) then
    (st, some .columnValues)
  else
    let p := joint_capacity_constraints ct st.next_constraint_id
    let st1 := { st with
      constraints_rhs_and_type := updateKey st.constraints_rhs_and_type "joint_capacity" p.1,
      unit_level_maps := updateKey st.unit_level_maps "joint_capacity" p.2 }
    if p.1.isEmpty then (st1, some .emptyMax)
    else ({ st1 with next_constraint_id := maxOfIds (p.1.map (fun r => r.constraint_id)) + 1 }, none)

/-- `Spot.set_energy_and_regulation_capacity_constraints` (markets.py lines
1250-1254). -/
def set_energy_and_regulation_capacity_constraints (st : Market) (rt : List Trapezium) :
    Market × Option Err :=
  if !nodupOn (fun t => (t.unit, t.service)) rt then (st, some .repeatedRow)
  else if rt.any (fun t => decide (t.max_availability < 0) || decide (t.enablement_min < 0) ||
      decide (t.low_break_point < 0) || decide (t.enablement_max < 0)) then
    (st, some .columnValues)
  else
    let p := energy_and_regulation_capacity_constraints rt st.next_constraint_id
    let st1 := { st with
      constraints_rhs_and_type :=
        updateKey st.constraints_rhs_and_type "energy_and_regulation_capacity" p.1,
      unit_level_maps := updateKey st.unit_level_maps "energy_and_regulation_capacity" p.2 }
    if p.1.isEmpty then (st1, some .emptyMax)
    else ({ st1 with next_constraint_id := maxOfIds (p.1.map (fun r => r.constraint_id)) + 1 }, none)

/-- `Spot.set_generic_constraints` (markets.py lines 1666-1670): each row of
`generic_constraint_parameters` gets a constraint id from `hf.save_index`
(modelled from the spec: consecutive ids from the counter) and the table is
stored under the key `'generic'`.  On an empty input pandas `.max()` yields
NaN, silently poisoning the counter; the embedding reports that outcome as
the `emptyMax` error (a natural-number counter cannot hold NaN). -/
def set_generic_constraints (st : Market) (g : List GenericRow) : Market × Option Err :=
  if !nodupOn (fun r => r.set) g then (st, some .repeatedRow)
  else
    let rows := (withIds st.next_constraint_id g).map
      (fun p => (⟨p.2.set, "", "", "", p.1, p.2.type, p.2.rhs⟩ : RhsRow))
    let st1 := { st with
      constraints_rhs_and_type := updateKey st.constraints_rhs_and_type "generic" rows }
    if rows.isEmpty then (st1, some .emptyMax)
    else ({ st1 with next_constraint_id := maxOfIds (rows.map (fun r => r.constraint_id)) + 1 }, none)

/-- `Spot.set_interconnectors` (markets.py lines 1348-1360): the directions
table is stored first, then one flow variable per interconnector is created
(`inter.create`, modelled from the spec: bounds `[min, max]`, consecutive
ids), then the counter is advanced by `max(...) + 1` — on an empty input the
builtin `max` raises after the directions and variables were assigned. -/
def set_interconnectors (st : Market) (rows : List InterRow) : Market × Option Err :=
  if !nodupOn (fun r => r.interconnector) rows then (st, some .repeatedRow)
  else
    let vars := (withIds st.next_variable_id rows).map
      (fun p => (⟨p.1, p.2.interconnector, p.2.min, p.2.max⟩ : InterVar))
    let st1 := { st with
      interconnector_directions := some rows,
      interconnector_vars := some vars }
    if vars.isEmpty then (st1, some .emptyMax)
    else ({ st1 with next_variable_id := maxOfIds (vars.map (fun v => v.variable_id)) + 1 }, none)

/-- `Spot.set_interconnector_losses` (markets.py lines 1552-1597).  The loss
shares are stored first (line 1552); then loss variables (one per
`loss_functions` row), weight variables (one per break point), a
weights-sum-to-one constraint per interconnector, and the two dynamic-rhs
constraint groups per interconnector are allocated with consecutive ids
(the `inter.*` allocators are modelled from the spec, §4.6); finally both
counters are advanced past the maxima of the new ids (lines 1596-1597).  On
an empty input pandas `.max()` NaN-poisons the id chain; the embedding
reports that as `emptyMax` after the line-1552 mutation. -/
def set_interconnector_losses (st : Market) (loss_functions : List LossFnRow)
    (break_points : List BreakPointRow) : Market × Option Err :=
  match st.interconnector_vars with
  | none => (st, some .modelBuild)
  | some ivars =>
      if !nodupOn (fun r => r.interconnector) loss_functions then (st, some .repeatedRow)
      else if loss_functions.any (fun r => decide (r.from_region_loss_share < 0) ||
          decide (1 < r.from_region_loss_share)) then (st, some .columnValues)
      else
        let st0 := { st with interconnector_loss_shares := some loss_functions }
        if loss_functions.isEmpty then (st0, some .emptyMax)
        else if break_points.isEmpty then (st0, some .emptyMax)
        else
          let lvars := create_loss_variables loss_functions st.next_variable_id
          let nv1 := maxOfIds (lvars.map (fun v => v.variable_id)) + 1
          let wvars := create_weights break_points nv1
          let inters := keysOf (fun v : SimpleVar => v.interconnector) wvars
          let wsum := create_weights_must_sum_to_one inters st.next_constraint_id
          let nc1 := maxOfIds (wsum.map (fun r => r.constraint_id)) + 1
          let linkFlow := link_weights_to_inter_flow ivars inters nc1
          let nc2 := maxOfIds (linkFlow.map (fun r => r.constraint_id)) + 1
          let linkLoss := link_inter_loss_to_interpolation_weights lvars inters nc2
          let dynamic := linkFlow ++ linkLoss
          ({ st0 with
              loss_vars := some lvars,
              weight_vars := some wvars,
              constraints_rhs_and_type :=
                updateKey st.constraints_rhs_and_type "interpolation_weights" wsum,
              constraints_dynamic_rhs_and_type :=
                updateKey st.constraints_dynamic_rhs_and_type "link_loss_to_flow" dynamic,
              next_variable_id := maxOfIds ((lvars ++ wvars).map (fun v => v.variable_id)) + 1,
              next_constraint_id :=
                maxOfIds (wsum.map (fun r => r.constraint_id)
                  ++ dynamic.map (fun r => r.constraint_id)) + 1 }, none)

/-- The constraint-set lookup of `make_constraints_elastic` (markets.py
lines 2000-2005): `market_constraints_rhs_and_type` first, then
`constraints_rhs_and_type`; `none` embeds the python state in which
`rhs_and_type` stays unbound because the `ModelBuildError` of line 2005 is
constructed but never raised. -/
def rhsLookup (st : Market) (key : String) : Option (List RhsRow) :=
  match st.market_constraints_rhs_and_type.lookup key with
  | some r => some r
  | none => st.constraints_rhs_and_type.lookup key

/-- Lines 2007-2029 of `make_constraints_elastic`: attach the `cost` column
to the constraint rows.  `'market_ceiling_price'` uses the market ceiling;
a number is used directly; a cost table is inner-merged on `set` (rows whose
set has no cost are dropped, markets.py line 2027); for any other value the
`ValueError` of line 2029 is constructed but never raised, so no cost
column is attached (`none`). -/
def addCostColumn (ceiling : ℚ) (rows : List RhsRow) :
    ViolationCost → Option (List (RhsRow × ℚ))
  | .ceiling => some (rows.map (fun r => (r, ceiling)))
  | .num c => some (rows.map (fun r => (r, c)))
  | .table t => some (rows.filterMap (fun r => (t.lookup r.set).map (fun c => (r, c))))
  | .unsupported => none

/-- The validation of a DataFrame-valued `violation_cost` (markets.py lines
2013-2026): one row per set (`raise check.RepeatedRowError`, line 2023).
The dtype checks are embedded away by typing, and non-table costs have no
validation of their own. -/
def violationCostOk : ViolationCost → Bool
  | .table t => nodupOn Prod.fst t
  | _ => true

/-- Lines 2031-2037 of `make_constraints_elastic`: run
`create_deficit_variables` and store its outputs under `key + '_deficit'`
in the three tables, then advance the variable counter past the new ids.
The builtin `max` of line 2037 raises on an empty deficit table *after* the
three table assignments. -/
def elasticFinish (st : Market) (key : String) (input : Option (List (RhsRow × ℚ))) :
    Market × Option Err :=
  match create_deficit_variables input st.next_variable_id with
  | .error e => (st, some e)
  | .ok p =>
      let dkey := key ++ "_deficit"
      let st1 := { st with
        deficit_vars := updateKey st.deficit_vars dkey p.1,
        objective_deficit :=
          updateKey st.objective_deficit dkey (p.1.map (fun v => (v.variable_id, v.cost))),
        lhs_deficit := updateKey st.lhs_deficit dkey p.2 }
      if p.1.isEmpty then (st1, some .emptyMax)
      else ({ st1 with next_variable_id := maxOfIds (p.1.map (fun v => v.variable_id)) + 1 }, none)

/-- `Spot.make_constraints_elastic` (markets.py lines 1999-2037).  The
`cost` column is attached per the `violation_cost` branch: the market
ceiling price, the fixed number, or a merge with the per-set cost table (an
inner merge — sets without a cost are dropped); for any unsupported value
the `ValueError` of line 2029 is constructed but *not* raised, so execution
continues without a cost column and fails inside
`create_deficit_variables`.  With a `constraints_key` matching no
constraint set, the `ModelBuildError` of line 2005 is likewise never
raised and the first later read of `rhs_and_type` raises
`UnboundLocalError`. -/
def make_constraints_elastic (st : Market) (key : String) (vc : ViolationCost) :
    Market × Option Err :=
  if !violationCostOk vc then (st, some .repeatedRow)
  else
    match rhsLookup st key with
    | none => (st, some .unboundLocal)
    | some rows => elasticFinish st key (addCostColumn st.market_ceiling_price rows vc)

/-- One builder call on a `Spot` instance (the operations embedded above). -/
inductive BuilderOp where
  | setUnitInfo (u : UnitInfoTable)
  | setUnitVolumeBids (vb : List VolumeBidRow)
  | setUnitPriceBids (pb : List PriceBidRow)
  | setJointCapacityConstraints (ct : List Trapezium)
  | setEnergyAndRegulationCapacityConstraints (rt : List Trapezium)
  | setGenericConstraints (g : List GenericRow)
  | setInterconnectors (rows : List InterRow)
  | setInterconnectorLosses (lf : List LossFnRow) (bp : List BreakPointRow)
  | makeConstraintsElastic (key : String) (vc : ViolationCost)

/-- Dispatch of one builder call. -/
def stepOp (st : Market) : BuilderOp → Market × Option Err
  | .setUnitInfo u => (set_unit_info st u, none)
  | .setUnitVolumeBids vb => set_unit_volume_bids st vb
  | .setUnitPriceBids pb => set_unit_price_bids st pb
  | .setJointCapacityConstraints ct => set_joint_capacity_constraints st ct
  | .setEnergyAndRegulationCapacityConstraints rt =>
      set_energy_and_regulation_capacity_constraints st rt
  | .setGenericConstraints g => set_generic_constraints st g
  | .setInterconnectors rows => set_interconnectors st rows
  | .setInterconnectorLosses lf bp => set_interconnector_losses st lf bp
  | .makeConstraintsElastic key vc => make_constraints_elastic st key vc

/-- Run a sequence of builder calls (continuing past errors, as a caller
that catches exceptions would). -/
def runOps (st : Market) : List BuilderOp → Market
  | [] => st
  | op :: ops => runOps (stepOp st op).1 ops

/-- Every variable id present in the market's variable tables. -/
def allVarIds (st : Market) : List ℕ :=
  (st.bid_vars.getD []).map (fun v => v.variable_id)
    ++ (st.interconnector_vars.getD []).map (fun v => v.variable_id)
    ++ (st.loss_vars.getD []).map (fun v => v.variable_id)
    ++ (st.weight_vars.getD []).map (fun v => v.variable_id)
    ++ st.deficit_vars.flatMap (fun p => p.2.map (fun v => v.variable_id))

/-- Every constraint id present in the market's constraint tables. -/
def allConstraintIds (st : Market) : List ℕ :=
  st.constraints_rhs_and_type.flatMap (fun p => p.2.map (fun r => r.constraint_id))
    ++ st.market_constraints_rhs_and_type.flatMap (fun p => p.2.map (fun r => r.constraint_id))
    ++ st.constraints_dynamic_rhs_and_type.flatMap (fun p => p.2.map (fun r => r.constraint_id))

/-- The id-counter invariant: every id in a table is below its counter. -/
def IdInv (st : Market) : Prop :=
  (∀ id ∈ allVarIds st, id < st.next_variable_id) ∧
  (∀ id ∈ allConstraintIds st, id < st.next_constraint_id)

/-! ## FCAS availability (`Spot.get_fcas_availability`, markets.py lines 2902-2923) -/

/-- The post-solve `slack` column of a constraint family
(`constraints_rhs_and_type[...].loc[:, ['constraint_id', 'slack']]`). -/
structure SlackRow where
  constraint_id : ℕ
  slack : ℚ
deriving DecidableEq, Repr

/-- A row of the intermediate `fcas_variable_slack` table. -/
structure ServiceSlackEntry where
  unit : String
  service : String
  service_slack : ℚ
deriving DecidableEq, Repr

/-- A row of the table returned by `get_fcas_availability`. -/
structure AvailRow where
  unit : String
  service : String
  availability : ℚ
deriving DecidableEq, Repr

/-- Lines 2902-2913 of `get_fcas_availability`: for each constraint family
present (of `fcas_max_availability`, `joint_ramping`, `joint_capacity`,
`energy_and_regulation_capacity`), merge its unit-level variable map with
its slack column on `constraint_id` and divide each slack by the absolute
coefficient. -/
def fcas_variable_slack (families : List (List CoeffRow × List SlackRow)) :
    List ServiceSlackEntry :=
  families.flatMap (fun f =>
    f.1.flatMap (fun c =>
      (f.2.filter (fun s => s.constraint_id = c.constraint_id)).map
        (fun s => ⟨c.unit, c.service, s.slack / |c.coefficient|⟩)))

/-- `Spot.get_fcas_availability` (markets.py lines 2902-2923), as a function
of the post-solve tables it reads: the present families' unit-level variable
maps with their slack columns, and the unit dispatch table of
`get_unit_dispatch`.  Groups the per-constraint slack-over-coefficient
ratios by `(unit, service)` taking the minimum, drops the energy rows,
inner-merges with the dispatch levels and adds. -/
def get_fcas_availability (families : List (List CoeffRow × List SlackRow))
    (dispatch : List DispatchRow) : List AvailRow :=
  let entries := fcas_variable_slack families
  let grouped := (keysOf (fun e => (e.unit, e.service)) entries).map
    (fun k => (k, minOfList ((entries.filter
      (fun e => (e.unit, e.service) = k)).map (fun e => e.service_slack))))
  let nonEnergy := grouped.filter (fun g => ¬ g.1.2 = "energy")
  nonEnergy.flatMap (fun g =>
    (dispatch.filter (fun d => d.unit = g.1.1 ∧ d.service = g.1.2)).map
      (fun d => ⟨d.unit, d.service, d.dispatch + g.2⟩))

/-! ## Theorems -/

theorem net_dispatch_no_negation_of_all_generator (info : List UnitInfoRow)
    (d : List DispatchRow) (h : ∀ r ∈ info, r.dispatch_type = "generator") :
    net_unit_dispatch_by_region info d = net_unit_dispatch_no_negation info d := by
  have hm : ∀ dd : DispatchRow,
      (info.filter (fun r => r.unit = dd.unit)).map
        (fun r => (r.region, make_load_dispatch_negative r.dispatch_type dd.dispatch))
      = (info.filter (fun r => r.unit = dd.unit)).map (fun r => (r.region, dd.dispatch)) := by
    intro dd
    apply List.map_congr_left
    intro r hr
    have hrr : r ∈ info := List.mem_of_mem_filter hr
    rw [make_load_dispatch_negative, h r hrr]
    simp
  unfold net_unit_dispatch_by_region net_unit_dispatch_no_negation
  simp only [hm]

/-- **C10**: a `unit_info` DataFrame without a `dispatch_type` column is
stored with every unit's `dispatch_type` defaulted to `'generator'` (units
and regions unchanged), so the regional net-dispatch summary applies no
load negation to any of these units. -/
theorem set_unit_info_defaults_to_generator (st : Market) (u : UnitInfoTable)
    (h : u.hasDispatchType = false) :
    ∃ info : UnitInfoTable, (set_unit_info st u).unit_info = some info ∧
      info.rows.map (fun r => (r.unit, r.region, r.loss_factor))
        = u.rows.map (fun r => (r.unit, r.region, r.loss_factor)) ∧
      (∀ r ∈ info.rows, r.dispatch_type = "generator") ∧
      ∀ d, net_unit_dispatch_by_region info.rows d = net_unit_dispatch_no_negation info.rows d := by
  refine ⟨set_unit_info_table u, rfl, ?_, ?_, ?_⟩
  · unfold set_unit_info_table
    rw [h]
    simp
  · unfold set_unit_info_table
    rw [h]
    simp only [Bool.false_eq_true, if_false, List.mem_map]
    rintro r ⟨r', _, rfl⟩
    rfl
  · intro d
    apply net_dispatch_no_negation_of_all_generator
    unfold set_unit_info_table
    rw [h]
    simp only [Bool.false_eq_true, if_false, List.mem_map]
    rintro r ⟨r', _, rfl⟩
    rfl

/-- A concrete unit-info table without a `dispatch_type` column. -/
def demoUnitInfo : UnitInfoTable :=
  { rows := [⟨"A", "NSW", 1, ""⟩, ⟨"B", "NSW", 1, ""⟩],
    hasLossFactor := false, hasDispatchType := false }

/-- Witness for **C10** at a concrete two-unit table. -/
theorem set_unit_info_defaults_to_generator_witness :
    ∃ info : UnitInfoTable, (set_unit_info freshMarket demoUnitInfo).unit_info = some info ∧
      info.rows.map (fun r => (r.unit, r.region, r.loss_factor))
        = demoUnitInfo.rows.map (fun r => (r.unit, r.region, r.loss_factor)) ∧
      (∀ r ∈ info.rows, r.dispatch_type = "generator") ∧
      ∀ d, net_unit_dispatch_by_region info.rows d
        = net_unit_dispatch_no_negation info.rows d :=
  set_unit_info_defaults_to_generator freshMarket demoUnitInfo rfl

theorem bandVars_cons_zero (u s : String) (b : BidBand) (bs : List BidBand) (n : ℕ)
    (hb : b.volume = 0) : bandVars u s (b :: bs) n = bandVars u s bs n := by
  simp only [bandVars, hb, if_true]

theorem bandVars_cons_nonzero (u s : String) (b : BidBand) (bs : List BidBand) (n : ℕ)
    (hb : ¬ b.volume = 0) :
    bandVars u s (b :: bs) n =
      (⟨n, u, s, b.band, 0, b.volume⟩ :: (bandVars u s bs (n + 1)).1,
       (bandVars u s bs (n + 1)).2) := by
  simp only [bandVars, hb, if_false]

theorem filter_cons_zero {b : BidBand} (bs : List BidBand) (hb : b.volume = 0) :
    (b :: bs).filter (fun b => ¬ b.volume = 0) = bs.filter (fun b => ¬ b.volume = 0) := by
  rw [List.filter_cons, if_neg (by simp [hb])]

theorem filter_cons_nonzero {b : BidBand} (bs : List BidBand) (hb : ¬ b.volume = 0) :
    (b :: bs).filter (fun b => ¬ b.volume = 0) = b :: bs.filter (fun b => ¬ b.volume = 0) := by
  rw [List.filter_cons, if_pos (by simp [hb])]

theorem bandVars_dropZero (u s : String) (bs : List BidBand) (n : ℕ) :
    bandVars u s (bs.filter (fun b => ¬ b.volume = 0)) n = bandVars u s bs n := by
  induction bs generalizing n with
  | nil => rfl
  | cons b rest ih =>
      by_cases hb : b.volume = 0
      · rw [filter_cons_zero rest hb, ih, bandVars_cons_zero u s b rest n hb]
      · rw [filter_cons_nonzero rest hb, bandVars_cons_nonzero u s b _ n hb,
          bandVars_cons_nonzero u s b rest n hb, ih]

theorem bandVars_snd (u s : String) (bs : List BidBand) (n : ℕ) :
    (bandVars u s bs n).2 = n + (bs.filter (fun b => ¬ b.volume = 0)).length := by
  induction bs generalizing n with
  | nil => simp [bandVars]
  | cons b rest ih =>
      by_cases hb : b.volume = 0
      · rw [bandVars_cons_zero u s b rest n hb, filter_cons_zero rest hb]
        exact ih n
      · rw [bandVars_cons_nonzero u s b rest n hb, filter_cons_nonzero rest hb]
        simp only [List.length_cons]
        rw [ih (n + 1)]
        omega

theorem bandVars_nonzero (u s : String) (bs : List BidBand) (n : ℕ) :
    ∀ v ∈ (bandVars u s bs n).1, v.upper_bound ≠ 0 := by
  induction bs generalizing n with
  | nil => intro v hv; cases hv
  | cons b rest ih =>
      intro v hv
      by_cases hb : b.volume = 0
      · rw [bandVars_cons_zero u s b rest n hb] at hv
        exact ih n v hv
      · rw [bandVars_cons_nonzero u s b rest n hb] at hv
        rcases List.mem_cons.mp hv with rfl | hmem
        · exact hb
        · exact ih (n + 1) v hmem

theorem bids_dropZero_aux (rows : List VolumeBidRow) (n : ℕ) :
    bids (rows.map dropZeroBands) n = bids rows n := by
  induction rows generalizing n with
  | nil => rfl
  | cons r rest ih =>
      rw [List.map_cons, bids, bids]
      simp only [dropZeroBands]
      rw [bandVars_dropZero, ih]

theorem bids_snd (rows : List VolumeBidRow) (n : ℕ) :
    (bids rows n).2 = n + nonZeroBandCount rows := by
  induction rows generalizing n with
  | nil => simp [bids, nonZeroBandCount]
  | cons r rest ih =>
      rw [bids]
      simp only
      rw [ih, bandVars_snd]
      simp only [nonZeroBandCount, List.map_cons, List.sum_cons]
      omega

theorem bids_nonzero (rows : List VolumeBidRow) (n : ℕ) :
    ∀ v ∈ (bids rows n).1, v.upper_bound ≠ 0 := by
  induction rows generalizing n with
  | nil => intro v hv; cases hv
  | cons r rest ih =>
      intro v hv
      rw [bids] at hv
      simp only at hv
      rcases List.mem_append.mp hv with hmem | hmem
      · exact bandVars_nonzero _ _ _ _ v hmem
      · exact ih _ v hmem

/-- **C6**: a zero-volume bid band yields no decision variable (every
created variable's upper bound is the non-zero band volume) and consumes no
variable id: the variables (ids included) created from a volume-bid table
are exactly those created from the same table with the zero-volume bands
removed, and the number of ids consumed equals the number of non-zero
bands. -/
theorem zero_volume_bands_consume_no_ids (rows : List VolumeBidRow) (n : ℕ) :
    bids (rows.map dropZeroBands) n = bids rows n ∧
    (bids rows n).2 = n + nonZeroBandCount rows ∧
    ∀ v ∈ (bids rows n).1, v.upper_bound ≠ 0 :=
  ⟨bids_dropZero_aux rows n, bids_snd rows n, bids_nonzero rows n⟩

theorem mem_objective_function_bids {vars : List BidVar} {price_bids : List PriceBidRow}
    {o : ObjRow} (h : o ∈ objective_function_bids vars price_bids) :
    ∃ p, priceOf price_bids o.unit o.service o.capacity_band = some p ∧ o.cost = p := by
  rcases List.mem_filterMap.mp h with ⟨v, _, hv⟩
  rcases Option.map_eq_some'.mp hv with ⟨p, hp, rfl⟩
  exact ⟨p, hp, rfl⟩

/-- **C7**: when `unit_info` has a `loss_factor` column, every objective
cost stored by `set_unit_price_bids` for a unit with loss factor `L > 0` is
exactly the band's bid price divided by `L`; when the column is absent,
every stored cost is exactly the bid price. -/
theorem price_bids_scaled_by_loss_factor (st : Market) (price_bids : List PriceBidRow)
    (st' : Market) (h : set_unit_price_bids st price_bids = (st', none)) :
    ∃ vars info, st.bid_vars = some vars ∧ st.unit_info = some info ∧
      ∃ obj, st'.objective_bids = some obj ∧
        (info.hasLossFactor = true →
          ∀ o ∈ obj, ∀ L, lossFactorOf info.rows o.unit = some L → 0 < L →
            ∃ p, priceOf price_bids o.unit o.service o.capacity_band = some p ∧
              o.cost = p / L) ∧
        (info.hasLossFactor = false →
          ∀ o ∈ obj, ∃ p, priceOf price_bids o.unit o.service o.capacity_band = some p ∧
            o.cost = p) := by
  unfold set_unit_price_bids at h
  cases hbv : st.bid_vars with
  | none => rw [hbv] at h; exact absurd (congrArg Prod.snd h) (by simp)
  | some vars =>
      rw [hbv] at h
      simp only at h
      split_ifs at h with h1 h2
      · exact absurd (congrArg Prod.snd h) (by simp)
      · exact absurd (congrArg Prod.snd h) (by simp)
      · cases hui : st.unit_info with
        | none => rw [hui] at h; exact absurd (congrArg Prod.snd h) (by simp)
        | some info =>
            rw [hui] at h
            simp only at h
            have hfst := congrArg Prod.fst h
            simp only at hfst
            refine ⟨vars, info, rfl, rfl,
              (if info.hasLossFactor = true then
                scale_by_loss_factors (objective_function_bids vars price_bids) info.rows
              else objective_function_bids vars price_bids), ?_, ?_, ?_⟩
            · rw [← hfst]
            · intro hlf o ho L hL _
              rw [if_pos hlf] at ho
              rcases List.mem_filterMap.mp ho with ⟨o₀, ho₀, hmap⟩
              rcases Option.map_eq_some'.mp hmap with ⟨lf, hlfv, rfl⟩
              rcases mem_objective_function_bids ho₀ with ⟨p, hp, hc⟩
              have hunit : ({ o₀ with cost := o₀.cost / lf } : ObjRow).unit = o₀.unit := rfl
              rw [hunit] at hL
              rw [hlfv] at hL
              have hLlf : L = lf := (Option.some.inj hL).symm
              exact ⟨p, hp, by simp [hc, hLlf]⟩
            · intro hlf o ho
              rw [if_neg (by simp [hlf])] at ho
              exact mem_objective_function_bids ho

/-- Concrete volume bids: unit A, bands of 10 MW and 0 MW. -/
def demoVolumeBids : List VolumeBidRow :=
  [⟨"A", "energy", [⟨1, 10⟩, ⟨2, 0⟩]⟩]

/-- Concrete price bids for unit A. -/
def demoPriceBids : List PriceBidRow :=
  [⟨"A", "energy", [⟨1, 50⟩, ⟨2, 60⟩]⟩]

/-- A market holding unit info with a loss factor of 0.9 for unit A and the
bid variables from `demoVolumeBids`. -/
def demoMarketLF : Market :=
  { freshMarket with
    unit_info := some { rows := [⟨"A", "NSW", 9/10, "generator"⟩],
                        hasLossFactor := true, hasDispatchType := true },
    bid_vars := some (bids demoVolumeBids 0).1,
    next_variable_id := 1 }

/-- Witness for **C7**: unit A with loss factor 9/10 gets cost
`50 / (9/10)` on its first band. -/
theorem price_bids_scaled_by_loss_factor_witness :
    ∃ vars info, demoMarketLF.bid_vars = some vars ∧ demoMarketLF.unit_info = some info ∧
      ∃ obj, (set_unit_price_bids demoMarketLF demoPriceBids).1.objective_bids = some obj ∧
        (info.hasLossFactor = true →
          ∀ o ∈ obj, ∀ L, lossFactorOf info.rows o.unit = some L → 0 < L →
            ∃ p, priceOf demoPriceBids o.unit o.service o.capacity_band = some p ∧
              o.cost = p / L) ∧
        (info.hasLossFactor = false →
          ∀ o ∈ obj, ∃ p, priceOf demoPriceBids o.unit o.service o.capacity_band = some p ∧
            o.cost = p) :=
  price_bids_scaled_by_loss_factor demoMarketLF demoPriceBids
    (set_unit_price_bids demoMarketLF demoPriceBids).1 rfl

theorem block_rhs_ids (t : Trapezium) (m : ℕ) :
    ∀ r ∈ jointCapacityRhsBlock m t, r.constraint_id = m ∨ r.constraint_id = m + 1 := by
  intro r hr
  simp only [jointCapacityRhsBlock, List.mem_cons, List.not_mem_nil, or_false] at hr
  rcases hr with rfl | rfl
  · exact Or.inl rfl
  · exact Or.inr rfl

theorem block_coeff_ids (t : Trapezium) (m : ℕ) :
    ∀ c ∈ jointCapacityCoeffBlock m t, c.constraint_id = m ∨ c.constraint_id = m + 1 := by
  intro c hc
  simp only [jointCapacityCoeffBlock, List.mem_cons, List.not_mem_nil, or_false] at hc
  rcases hc with rfl | rfl | rfl | rfl | rfl | rfl
  · exact Or.inl rfl
  · exact Or.inl rfl
  · exact Or.inl rfl
  · exact Or.inr rfl
  · exact Or.inr rfl
  · exact Or.inr rfl

theorem block_rhs_keys (t : Trapezium) (m : ℕ) :
    ∀ r ∈ jointCapacityRhsBlock m t, r.unit = t.unit ∧ r.service = t.service := by
  intro r hr
  simp only [jointCapacityRhsBlock, List.mem_cons, List.not_mem_nil, or_false] at hr
  rcases hr with rfl | rfl
  · exact ⟨rfl, rfl⟩
  · exact ⟨rfl, rfl⟩

theorem jcc_rhs_ids (ts : List Trapezium) (n : ℕ) :
    ∀ r ∈ jointCapacityRhs ts n,
      n ≤ r.constraint_id ∧ r.constraint_id < n + 2 * ts.length := by
  induction ts generalizing n with
  | nil => intro r hr; cases hr
  | cons t ts ih =>
      intro r hr
      rw [jointCapacityRhs] at hr
      simp only [List.length_cons]
      rcases List.mem_append.mp hr with hb | hrec
      · rcases block_rhs_ids t n r hb with h | h <;> omega
      · have := ih (n + 2) r hrec
        omega

theorem jcc_coeff_ids (ts : List Trapezium) (n : ℕ) :
    ∀ c ∈ jointCapacityCoeff ts n,
      n ≤ c.constraint_id ∧ c.constraint_id < n + 2 * ts.length := by
  induction ts generalizing n with
  | nil => intro c hc; cases hc
  | cons t ts ih =>
      intro c hc
      rw [jointCapacityCoeff] at hc
      simp only [List.length_cons]
      rcases List.mem_append.mp hc with hb | hrec
      · rcases block_coeff_ids t n c hb with h | h <;> omega
      · have := ih (n + 2) c hrec
        omega

theorem jcc_rhs_keys (ts : List Trapezium) (n : ℕ) :
    ∀ r ∈ jointCapacityRhs ts n, ∃ t ∈ ts, r.unit = t.unit ∧ r.service = t.service := by
  induction ts generalizing n with
  | nil => intro r hr; cases hr
  | cons t ts ih =>
      intro r hr
      rw [jointCapacityRhs] at hr
      rcases List.mem_append.mp hr with hb | hrec
      · exact ⟨t, List.mem_cons_self t ts, block_rhs_keys t n r hb⟩
      · rcases ih (n + 2) r hrec with ⟨t', ht', hk⟩
        exact ⟨t', List.mem_cons_of_mem t ht', hk⟩

theorem block_rhs_filter_self (t : Trapezium) (m : ℕ) :
    (jointCapacityRhsBlock m t).filter
      (fun r => r.constraint_id = m ∨ r.constraint_id = m + 1) = jointCapacityRhsBlock m t := by
  rw [List.filter_eq_self]
  intro r hr
  rcases block_rhs_ids t m r hr with h | h <;> simp [h]

theorem block_rhs_filter_above (t : Trapezium) (m a : ℕ) (h : m + 1 < a) :
    (jointCapacityRhsBlock m t).filter
      (fun r => r.constraint_id = a ∨ r.constraint_id = a + 1) = [] := by
  rw [List.filter_eq_nil_iff]
  intro r hr
  rcases block_rhs_ids t m r hr with hid | hid <;> simp [hid] <;> omega

theorem block_coeff_filter_upper (t : Trapezium) (m : ℕ) :
    (jointCapacityCoeffBlock m t).filter (fun c => c.constraint_id = m)
      = [⟨m, t.unit, "energy", 1⟩,
         ⟨m, t.unit, t.service, (t.enablement_max - t.high_break_point) / t.max_availability⟩,
         ⟨m, t.unit, "raise_reg", 1⟩] := by
  show List.filter _ _ = _
  rw [jointCapacityCoeffBlock]
  rw [List.filter_cons_of_pos (by show decide (m = m) = true; simp)]
  rw [List.filter_cons_of_pos (by show decide (m = m) = true; simp)]
  rw [List.filter_cons_of_pos (by show decide (m = m) = true; simp)]
  rw [List.filter_cons_of_neg (by show ¬ decide (m + 1 = m) = true; simp)]
  rw [List.filter_cons_of_neg (by show ¬ decide (m + 1 = m) = true; simp)]
  rw [List.filter_cons_of_neg (by show ¬ decide (m + 1 = m) = true; simp)]
  rfl

theorem block_coeff_filter_lower (t : Trapezium) (m : ℕ) :
    (jointCapacityCoeffBlock m t).filter (fun c => c.constraint_id = m + 1)
      = [⟨m + 1, t.unit, "energy", 1⟩,
         ⟨m + 1, t.unit, t.service,
           -((t.low_break_point - t.enablement_min) / t.max_availability)⟩,
         ⟨m + 1, t.unit, "lower_reg", -1⟩] := by
  show List.filter _ _ = _
  rw [jointCapacityCoeffBlock]
  rw [List.filter_cons_of_neg (by show ¬ decide (m = m + 1) = true; simp)]
  rw [List.filter_cons_of_neg (by show ¬ decide (m = m + 1) = true; simp)]
  rw [List.filter_cons_of_neg (by show ¬ decide (m = m + 1) = true; simp)]
  rw [List.filter_cons_of_pos (by show decide (m + 1 = m + 1) = true; simp)]
  rw [List.filter_cons_of_pos (by show decide (m + 1 = m + 1) = true; simp)]
  rw [List.filter_cons_of_pos (by show decide (m + 1 = m + 1) = true; simp)]
  rfl

theorem block_coeff_filter_ne (t : Trapezium) (m a : ℕ) (h1 : a ≠ m) (h2 : a ≠ m + 1) :
    (jointCapacityCoeffBlock m t).filter (fun c => c.constraint_id = a) = [] := by
  rw [List.filter_eq_nil_iff]
  intro c hc
  rcases block_coeff_ids t m c hc with hid | hid <;> simp [hid] <;> omega

theorem jcc_rhs_filter_ids (ts : List Trapezium) (n : ℕ) (i : ℕ) (hi : i < ts.length) :
    (jointCapacityRhs ts n).filter
        (fun r => r.constraint_id = n + 2 * i ∨ r.constraint_id = n + 2 * i + 1)
      = jointCapacityRhsBlock (n + 2 * i) (ts.get ⟨i, hi⟩) := by
  induction ts generalizing n i with
  | nil => cases hi
  | cons t ts ih =>
      rw [jointCapacityRhs, List.filter_append]
      cases i with
      | zero =>
          simp only [Nat.mul_zero, Nat.add_zero]
          have hrec : (jointCapacityRhs ts (n + 2)).filter
              (fun r => r.constraint_id = n ∨ r.constraint_id = n + 1) = [] := by
            rw [List.filter_eq_nil_iff]
            intro r hr
            have := (jcc_rhs_ids ts (n + 2) r hr).1
            simp only [decide_eq_true_eq]
            push_neg
            omega
          rw [hrec, List.append_nil, block_rhs_filter_self]
          rfl
      | succ j =>
          rw [block_rhs_filter_above t n _ (by omega)]
          rw [List.nil_append]
          have h0 : n + 2 * (j + 1) = (n + 2) + 2 * j := by omega
          rw [h0]
          exact ih (n + 2) j (Nat.lt_of_succ_lt_succ hi)

theorem jcc_coeff_filter_upper (ts : List Trapezium) (n : ℕ) (i : ℕ) (hi : i < ts.length) :
    (jointCapacityCoeff ts n).filter (fun c => c.constraint_id = n + 2 * i)
      = [⟨n + 2 * i, (ts.get ⟨i, hi⟩).unit, "energy", 1⟩,
         ⟨n + 2 * i, (ts.get ⟨i, hi⟩).unit, (ts.get ⟨i, hi⟩).service,
           ((ts.get ⟨i, hi⟩).enablement_max - (ts.get ⟨i, hi⟩).high_break_point) /
             (ts.get ⟨i, hi⟩).max_availability⟩,
         ⟨n + 2 * i, (ts.get ⟨i, hi⟩).unit, "raise_reg", 1⟩] := by
  induction ts generalizing n i with
  | nil => cases hi
  | cons t ts ih =>
      rw [jointCapacityCoeff, List.filter_append]
      cases i with
      | zero =>
          simp only [Nat.mul_zero, Nat.add_zero]
          have hrec : (jointCapacityCoeff ts (n + 2)).filter
              (fun c => c.constraint_id = n) = [] := by
            rw [List.filter_eq_nil_iff]
            intro c hc
            have := (jcc_coeff_ids ts (n + 2) c hc).1
            simp only [decide_eq_true_eq]
            omega
          rw [hrec, List.append_nil, block_coeff_filter_upper]
          rfl
      | succ j =>
          rw [block_coeff_filter_ne t n _ (by omega) (by omega)]
          rw [List.nil_append]
          have h0 : n + 2 * (j + 1) = (n + 2) + 2 * j := by omega
          rw [h0]
          exact ih (n + 2) j (Nat.lt_of_succ_lt_succ hi)

theorem jcc_coeff_filter_lower (ts : List Trapezium) (n : ℕ) (i : ℕ) (hi : i < ts.length) :
    (jointCapacityCoeff ts n).filter (fun c => c.constraint_id = n + 2 * i + 1)
      = [⟨n + 2 * i + 1, (ts.get ⟨i, hi⟩).unit, "energy", 1⟩,
         ⟨n + 2 * i + 1, (ts.get ⟨i, hi⟩).unit, (ts.get ⟨i, hi⟩).service,
           -(((ts.get ⟨i, hi⟩).low_break_point - (ts.get ⟨i, hi⟩).enablement_min) /
             (ts.get ⟨i, hi⟩).max_availability)⟩,
         ⟨n + 2 * i + 1, (ts.get ⟨i, hi⟩).unit, "lower_reg", -1⟩] := by
  induction ts generalizing n i with
  | nil => cases hi
  | cons t ts ih =>
      rw [jointCapacityCoeff, List.filter_append]
      cases i with
      | zero =>
          simp only [Nat.mul_zero, Nat.add_zero]
          have hrec : (jointCapacityCoeff ts (n + 2)).filter
              (fun c => c.constraint_id = n + 1) = [] := by
            rw [List.filter_eq_nil_iff]
            intro c hc
            have := (jcc_coeff_ids ts (n + 2) c hc).1
            simp only [decide_eq_true_eq]
            omega
          rw [hrec, List.append_nil, block_coeff_filter_lower]
          rfl
      | succ j =>
          rw [block_coeff_filter_ne t n _ (by omega) (by omega)]
          rw [List.nil_append]
          have h0 : n + 2 * (j + 1) + 1 = (n + 2) + 2 * j + 1 := by omega
          rw [h0]
          exact ih (n + 2) j (Nat.lt_of_succ_lt_succ hi)

theorem jcc_rhs_filter_unit_service (ts : List Trapezium) (n : ℕ) (i : ℕ) (hi : i < ts.length)
    (hnd : (ts.map (fun t => (t.unit, t.service))).Nodup) :
    (jointCapacityRhs ts n).filter
        (fun r => r.unit = (ts.get ⟨i, hi⟩).unit ∧ r.service = (ts.get ⟨i, hi⟩).service)
      = jointCapacityRhsBlock (n + 2 * i) (ts.get ⟨i, hi⟩) := by
  induction ts generalizing n i with
  | nil => cases hi
  | cons t ts ih =>
      rw [jointCapacityRhs, List.filter_append]
      rw [List.map_cons, List.nodup_cons] at hnd
      cases i with
      | zero =>
          simp only [Nat.mul_zero, Nat.add_zero]
          have hrec : (jointCapacityRhs ts (n + 2)).filter
              (fun r => r.unit = ((t :: ts).get ⟨0, hi⟩).unit ∧
                r.service = ((t :: ts).get ⟨0, hi⟩).service) = [] := by
            rw [List.filter_eq_nil_iff]
            intro r hr
            rcases jcc_rhs_keys ts (n + 2) r hr with ⟨t', ht', hu, hs⟩
            simp only [decide_eq_true_eq, List.get, not_and]
            intro h1 h2
            apply hnd.1
            rw [List.mem_map]
            refine ⟨t', ht', ?_⟩
            show (t'.unit, t'.service) = (t.unit, t.service)
            rw [← hu, ← hs, h1, h2]
          rw [hrec, List.append_nil]
          have hself : (jointCapacityRhsBlock n t).filter
              (fun r => r.unit = ((t :: ts).get ⟨0, hi⟩).unit ∧
                r.service = ((t :: ts).get ⟨0, hi⟩).service) = jointCapacityRhsBlock n t := by
            rw [List.filter_eq_self]
            intro r hr
            rcases block_rhs_keys t n r hr with ⟨hu, hs⟩
            simp only [decide_eq_true_eq, List.get]
            exact ⟨hu, hs⟩
          rw [hself]
          rfl
      | succ j =>
          have hkey : ((t :: ts).get ⟨j + 1, hi⟩) = ts.get ⟨j, Nat.lt_of_succ_lt_succ hi⟩ := rfl
          have htarget : (ts.get ⟨j, Nat.lt_of_succ_lt_succ hi⟩) ∈ ts :=
            ts.get_mem j (Nat.lt_of_succ_lt_succ hi)
          have hblock : (jointCapacityRhsBlock n t).filter
              (fun r => r.unit = ((t :: ts).get ⟨j + 1, hi⟩).unit ∧
                r.service = ((t :: ts).get ⟨j + 1, hi⟩).service) = [] := by
            rw [List.filter_eq_nil_iff]
            intro r hr
            rcases block_rhs_keys t n r hr with ⟨hu, hs⟩
            simp only [decide_eq_true_eq, not_and]
            intro h1 h2
            apply hnd.1
            rw [List.mem_map]
            refine ⟨ts.get ⟨j, Nat.lt_of_succ_lt_succ hi⟩, htarget, ?_⟩
            show _ = (t.unit, t.service)
            rw [hkey] at h1 h2
            rw [← h1, ← h2, hu, hs]
          rw [hblock, List.nil_append]
          have h0 : n + 2 * (j + 1) = (n + 2) + 2 * j := by omega
          rw [hkey, h0]
          exact ih (n + 2) j (Nat.lt_of_succ_lt_succ hi) hnd.2

/-- **C1**: for each contingency trapezium row handed to
`set_joint_capacity_constraints`, the stored tables contain exactly two
constraints for that `(unit, service)`: an upper `<=` constraint with rhs
`enablement_max` whose lhs rows are energy (`1`), the contingency service
(`(enablement_max − high_break_point)/max_availability`) and `raise_reg`
(`1`), and a lower `>=` constraint with rhs `enablement_min` whose lhs rows
are energy (`1`), the service
(`−(low_break_point − enablement_min)/max_availability`) and `lower_reg`
(`−1`); the `raise_reg` cross-term appears only in the upper constraint's
rows and `lower_reg` only in the lower constraint's rows. -/
theorem joint_capacity_two_constraints_per_row (st : Market) (ct : List Trapezium)
    (st' : Market) (h : set_joint_capacity_constraints st ct = (st', none))
    (i : ℕ) (hi : i < ct.length) :
    ∃ rhs cmap,
      st'.constraints_rhs_and_type.lookup "joint_capacity" = some rhs ∧
      st'.unit_level_maps.lookup "joint_capacity" = some cmap ∧
      rhs.filter (fun r => r.unit = (ct.get ⟨i, hi⟩).unit ∧
          r.service = (ct.get ⟨i, hi⟩).service)
        = [⟨"", (ct.get ⟨i, hi⟩).unit, (ct.get ⟨i, hi⟩).service, "",
             st.next_constraint_id + 2 * i, Rel.le, (ct.get ⟨i, hi⟩).enablement_max⟩,
           ⟨"", (ct.get ⟨i, hi⟩).unit, (ct.get ⟨i, hi⟩).service, "",
             st.next_constraint_id + 2 * i + 1, Rel.ge, (ct.get ⟨i, hi⟩).enablement_min⟩] ∧
      cmap.filter (fun c => c.constraint_id = st.next_constraint_id + 2 * i)
        = [⟨st.next_constraint_id + 2 * i, (ct.get ⟨i, hi⟩).unit, "energy", 1⟩,
           ⟨st.next_constraint_id + 2 * i, (ct.get ⟨i, hi⟩).unit, (ct.get ⟨i, hi⟩).service,
             ((ct.get ⟨i, hi⟩).enablement_max - (ct.get ⟨i, hi⟩).high_break_point) /
               (ct.get ⟨i, hi⟩).max_availability⟩,
           ⟨st.next_constraint_id + 2 * i, (ct.get ⟨i, hi⟩).unit, "raise_reg", 1⟩] ∧
      cmap.filter (fun c => c.constraint_id = st.next_constraint_id + 2 * i + 1)
        = [⟨st.next_constraint_id + 2 * i + 1, (ct.get ⟨i, hi⟩).unit, "energy", 1⟩,
           ⟨st.next_constraint_id + 2 * i + 1, (ct.get ⟨i, hi⟩).unit,
             (ct.get ⟨i, hi⟩).service,
             -(((ct.get ⟨i, hi⟩).low_break_point - (ct.get ⟨i, hi⟩).enablement_min) /
               (ct.get ⟨i, hi⟩).max_availability)⟩,
           ⟨st.next_constraint_id + 2 * i + 1, (ct.get ⟨i, hi⟩).unit, "lower_reg", -1⟩] := by
  unfold set_joint_capacity_constraints at h
  simp only [] at h
  split_ifs at h with h1 h2 h3
  · exact absurd (congrArg Prod.snd h) (by simp)
  · exact absurd (congrArg Prod.snd h) (by simp)
  · exact absurd (congrArg Prod.snd h) (by simp)
  · have hnd : (ct.map (fun t => (t.unit, t.service))).Nodup :=
      (nodupOn_iff _ ct).mp (by simpa using h1)
    have hfst := congrArg Prod.fst h
    simp only at hfst
    refine ⟨jointCapacityRhs ct st.next_constraint_id,
      jointCapacityCoeff ct st.next_constraint_id, ?_, ?_, ?_, ?_, ?_⟩
    · rw [← hfst]
      exact lookup_updateKey_self _ _ _
    · rw [← hfst]
      exact lookup_updateKey_self _ _ _
    · exact jcc_rhs_filter_unit_service ct st.next_constraint_id i hi hnd
    · exact jcc_coeff_filter_upper ct st.next_constraint_id i hi
    · exact jcc_coeff_filter_lower ct st.next_constraint_id i hi

/-- The contingency trapezium of the `set_joint_capacity_constraints`
doctest (markets.py lines 1075-1082). -/
def demoTrapeziums : List Trapezium :=
  [⟨"A", "raise_6s", 60, 20, 40, 60, 80⟩]

/-- Witness for **C1** at the doctest trapezium: constraints 0 and 1, slope
`(80−60)/60` on the upper and `−(40−20)/60` on the lower. -/
theorem joint_capacity_two_constraints_per_row_witness :
    ∃ rhs cmap,
      (set_joint_capacity_constraints freshMarket demoTrapeziums).1.constraints_rhs_and_type.lookup
          "joint_capacity" = some rhs ∧
      (set_joint_capacity_constraints freshMarket demoTrapeziums).1.unit_level_maps.lookup
          "joint_capacity" = some cmap ∧
      rhs.filter (fun r => r.unit = (demoTrapeziums.get ⟨0, by decide⟩).unit ∧
          r.service = (demoTrapeziums.get ⟨0, by decide⟩).service)
        = [⟨"", (demoTrapeziums.get ⟨0, by decide⟩).unit,
             (demoTrapeziums.get ⟨0, by decide⟩).service, "",
             freshMarket.next_constraint_id + 2 * 0, Rel.le,
             (demoTrapeziums.get ⟨0, by decide⟩).enablement_max⟩,
           ⟨"", (demoTrapeziums.get ⟨0, by decide⟩).unit,
             (demoTrapeziums.get ⟨0, by decide⟩).service, "",
             freshMarket.next_constraint_id + 2 * 0 + 1, Rel.ge,
             (demoTrapeziums.get ⟨0, by decide⟩).enablement_min⟩] ∧
      cmap.filter (fun c => c.constraint_id = freshMarket.next_constraint_id + 2 * 0)
        = [⟨freshMarket.next_constraint_id + 2 * 0,
             (demoTrapeziums.get ⟨0, by decide⟩).unit, "energy", 1⟩,
           ⟨freshMarket.next_constraint_id + 2 * 0,
             (demoTrapeziums.get ⟨0, by decide⟩).unit,
             (demoTrapeziums.get ⟨0, by decide⟩).service,
             ((demoTrapeziums.get ⟨0, by decide⟩).enablement_max -
               (demoTrapeziums.get ⟨0, by decide⟩).high_break_point) /
               (demoTrapeziums.get ⟨0, by decide⟩).max_availability⟩,
           ⟨freshMarket.next_constraint_id + 2 * 0,
             (demoTrapeziums.get ⟨0, by decide⟩).unit, "raise_reg", 1⟩] ∧
      cmap.filter (fun c => c.constraint_id = freshMarket.next_constraint_id + 2 * 0 + 1)
        = [⟨freshMarket.next_constraint_id + 2 * 0 + 1,
             (demoTrapeziums.get ⟨0, by decide⟩).unit, "energy", 1⟩,
           ⟨freshMarket.next_constraint_id + 2 * 0 + 1,
             (demoTrapeziums.get ⟨0, by decide⟩).unit,
             (demoTrapeziums.get ⟨0, by decide⟩).service,
             -(((demoTrapeziums.get ⟨0, by decide⟩).low_break_point -
               (demoTrapeziums.get ⟨0, by decide⟩).enablement_min) /
               (demoTrapeziums.get ⟨0, by decide⟩).max_availability)⟩,
           ⟨freshMarket.next_constraint_id + 2 * 0 + 1,
             (demoTrapeziums.get ⟨0, by decide⟩).unit, "lower_reg", -1⟩] :=
  joint_capacity_two_constraints_per_row freshMarket demoTrapeziums
    (set_joint_capacity_constraints freshMarket demoTrapeziums).1 rfl 0 (by decide)

theorem le_maxOfIds {l : List ℕ} {x : ℕ} (h : x ∈ l) : x ≤ maxOfIds l := by
  induction l with
  | nil => cases h
  | cons a rest ih =>
      rcases List.mem_cons.mp h with rfl | hmem
      · exact Nat.le_max_left _ _
      · exact le_trans (ih hmem) (Nat.le_max_right _ _)

theorem maxOfIds_lt {l : List ℕ} {B : ℕ} (hne : l ≠ []) (h : ∀ x ∈ l, x < B) :
    maxOfIds l < B := by
  induction l with
  | nil => exact absurd rfl hne
  | cons a rest ih =>
      cases rest with
      | nil => simpa [maxOfIds] using h a (List.mem_cons_self a [])
      | cons b rest' =>
          rw [maxOfIds]
          exact Nat.max_lt.mpr ⟨h a (List.mem_cons_self _ _),
            ih (by simp) (fun x hx => h x (List.mem_cons_of_mem _ hx))⟩

theorem deficitRows_fst_length (rows : List (RhsRow × ℚ)) (n : ℕ) :
    (deficitRows rows n).1.length = rows.length := by
  induction rows generalizing n with
  | nil => rfl
  | cons r rs ih => simp only [deficitRows, List.length_cons, ih]

theorem deficitRows_snd_length (rows : List (RhsRow × ℚ)) (n : ℕ) :
    (deficitRows rows n).2.length = rows.length := by
  induction rows generalizing n with
  | nil => rfl
  | cons r rs ih => simp only [deficitRows, List.length_cons, ih]

theorem deficitRows_fst_get (rows : List (RhsRow × ℚ)) (n : ℕ) (i : ℕ)
    (hc : i < rows.length) (hv : i < (deficitRows rows n).1.length) :
    (deficitRows rows n).1.get ⟨i, hv⟩
      = ⟨n + i, 0, none, (rows.get ⟨i, hc⟩).2⟩ := by
  induction rows generalizing n i with
  | nil => cases hc
  | cons r rs ih =>
      cases i with
      | zero => rfl
      | succ j =>
          have harith : n + 1 + j = n + (j + 1) := by omega
          rw [show (deficitRows (r :: rs) n).1.get ⟨j + 1, hv⟩
              = (deficitRows rs (n + 1)).1.get ⟨j, by
                  have := deficitRows_fst_length rs (n + 1)
                  have hc' := Nat.lt_of_succ_lt_succ hc
                  omega⟩ from rfl]
          rw [ih (n + 1) j (Nat.lt_of_succ_lt_succ hc)]
          rw [harith]
          rfl

theorem deficitRows_snd_get (rows : List (RhsRow × ℚ)) (n : ℕ) (i : ℕ)
    (hc : i < rows.length) (hl : i < (deficitRows rows n).2.length) :
    (deficitRows rows n).2.get ⟨i, hl⟩
      = ⟨n + i, (rows.get ⟨i, hc⟩).1.constraint_id,
          if (rows.get ⟨i, hc⟩).1.type = Rel.ge then 1 else -1⟩ := by
  induction rows generalizing n i with
  | nil => cases hc
  | cons r rs ih =>
      cases i with
      | zero => rfl
      | succ j =>
          have harith : n + 1 + j = n + (j + 1) := by omega
          rw [show (deficitRows (r :: rs) n).2.get ⟨j + 1, hl⟩
              = (deficitRows rs (n + 1)).2.get ⟨j, by
                  have := deficitRows_snd_length rs (n + 1)
                  have hc' := Nat.lt_of_succ_lt_succ hc
                  omega⟩ from rfl]
          rw [ih (n + 1) j (Nat.lt_of_succ_lt_succ hc)]
          rw [harith]
          rfl

theorem deficitRows_fst_ids (rows : List (RhsRow × ℚ)) (n : ℕ) :
    ∀ v ∈ (deficitRows rows n).1, n ≤ v.variable_id ∧ v.variable_id < n + rows.length := by
  induction rows generalizing n with
  | nil => intro v hv; cases hv
  | cons r rs ih =>
      intro v hv
      simp only [deficitRows] at hv
      simp only [List.length_cons]
      rcases List.mem_cons.mp hv with rfl | hmem
      · constructor
        · exact Nat.le_refl n
        · show n < n + (rs.length + 1)
          omega
      · have := ih (n + 1) v hmem
        omega

theorem deficitRows_snd_ids (rows : List (RhsRow × ℚ)) (n : ℕ) :
    ∀ r ∈ (deficitRows rows n).2, n ≤ r.variable_id ∧ r.variable_id < n + rows.length := by
  induction rows generalizing n with
  | nil => intro r hr; cases hr
  | cons r rs ih =>
      intro x hx
      simp only [deficitRows] at hx
      simp only [List.length_cons]
      rcases List.mem_cons.mp hx with rfl | hmem
      · constructor
        · exact Nat.le_refl n
        · show n < n + (rs.length + 1)
          omega
      · have := ih (n + 1) x hmem
        omega

theorem create_deficit_some_err (costed : List (RhsRow × ℚ)) (n : ℕ)
    (h : costed.any (fun r => r.1.type == Rel.eq) = true) :
    create_deficit_variables (some costed) n = .error .unsupportedElasticity := by
  simp only [create_deficit_variables, h, if_true]

theorem create_deficit_some_ok (costed : List (RhsRow × ℚ)) (n : ℕ)
    (h : costed.any (fun r => r.1.type == Rel.eq) = false) :
    create_deficit_variables (some costed) n = .ok (deficitRows costed n) := by
  simp only [create_deficit_variables, h]
  rfl

/-- Characterisation of a *successful* `make_constraints_elastic` call: the
key resolved to a constraint table, a cost column was attached, no row was
an `=` constraint, the deficit table was nonempty, and the three stored
tables under `key + '_deficit'` hold exactly the fresh allocation, with the
variable counter advanced past its maximum id. -/
theorem make_constraints_elastic_ok (st : Market) (key : String) (vc : ViolationCost)
    (st' : Market) (h : make_constraints_elastic st key vc = (st', none)) :
    ∃ rows costed, rhsLookup st key = some rows ∧
      addCostColumn st.market_ceiling_price rows vc = some costed ∧
      costed ≠ [] ∧
      costed.any (fun r => r.1.type == Rel.eq) = false ∧
      st'.deficit_vars.lookup (key ++ "_deficit")
        = some (deficitRows costed st.next_variable_id).1 ∧
      st'.objective_deficit.lookup (key ++ "_deficit")
        = some ((deficitRows costed st.next_variable_id).1.map
            (fun v => (v.variable_id, v.cost))) ∧
      st'.lhs_deficit.lookup (key ++ "_deficit")
        = some (deficitRows costed st.next_variable_id).2 ∧
      st'.next_variable_id
        = maxOfIds ((deficitRows costed st.next_variable_id).1.map
            (fun v => v.variable_id)) + 1 := by
  unfold make_constraints_elastic at h
  by_cases hok : (!violationCostOk vc) = true
  · rw [if_pos hok] at h
    exact absurd (congrArg Prod.snd h) (by simp)
  · rw [if_neg hok] at h
    cases hk : rhsLookup st key with
    | none =>
        rw [hk] at h
        exact absurd (congrArg Prod.snd h) (by simp)
    | some rows =>
        rw [hk] at h
        simp only [] at h
        cases hcost : addCostColumn st.market_ceiling_price rows vc with
        | none =>
            rw [hcost] at h
            unfold elasticFinish at h
            simp only [create_deficit_variables] at h
            exact absurd (congrArg Prod.snd h) (by simp)
        | some costed =>
            rw [hcost] at h
            unfold elasticFinish at h
            by_cases heq : costed.any (fun r => r.1.type == Rel.eq) = true
            · rw [create_deficit_some_err costed st.next_variable_id heq] at h
              exact absurd (congrArg Prod.snd h) (by simp)
            · have heqf : costed.any (fun r => r.1.type == Rel.eq) = false :=
                Bool.eq_false_iff.mpr heq
              rw [create_deficit_some_ok costed st.next_variable_id heqf] at h
              simp only [] at h
              by_cases hne : (deficitRows costed st.next_variable_id).1.isEmpty = true
              · rw [if_pos hne] at h
                exact absurd (congrArg Prod.snd h) (by simp)
              · rw [if_neg hne] at h
                have hfst := congrArg Prod.fst h
                simp only at hfst
                have hcne : costed ≠ [] := by
                  intro hc
                  apply hne
                  rw [hc]
                  rfl
                refine ⟨rows, costed, rfl, hcost, hcne, heqf, ?_, ?_, ?_, ?_⟩
                · rw [← hfst]
                  exact lookup_updateKey_self _ _ _
                · rw [← hfst]
                  exact lookup_updateKey_self _ _ _
                · rw [← hfst]
                  exact lookup_updateKey_self _ _ _
                · rw [← hfst]

/-- **C2 amended**: a successful `make_constraints_elastic` call creates,
per constraint of the (costed) set, exactly one deficit variable bounded
`[0, ∞)` with objective cost the supplied violation cost, and exactly one
lhs incidence entry against that constraint, with coefficient `+1` for a
`>=` constraint and `−1` for a `<=` constraint — the sign convention the
in-src doctest at markets.py lines 1942-1945 prints, opposite to the
claimed one. -/
theorem elastic_deficit_variable_shape (st : Market) (key : String) (vc : ViolationCost)
    (st' : Market) (h : make_constraints_elastic st key vc = (st', none)) :
    ∃ rows costed dv lhs,
      rhsLookup st key = some rows ∧
      addCostColumn st.market_ceiling_price rows vc = some costed ∧
      st'.deficit_vars.lookup (key ++ "_deficit") = some dv ∧
      st'.objective_deficit.lookup (key ++ "_deficit")
        = some (dv.map (fun v => (v.variable_id, v.cost))) ∧
      st'.lhs_deficit.lookup (key ++ "_deficit") = some lhs ∧
      dv.length = costed.length ∧
      lhs.length = costed.length ∧
      ∀ i (hc : i < costed.length) (hv : i < dv.length) (hl : i < lhs.length),
        (dv.get ⟨i, hv⟩).variable_id = st.next_variable_id + i ∧
        (dv.get ⟨i, hv⟩).lower_bound = 0 ∧
        (dv.get ⟨i, hv⟩).upper_bound = none ∧
        (dv.get ⟨i, hv⟩).cost = (costed.get ⟨i, hc⟩).2 ∧
        (lhs.get ⟨i, hl⟩).variable_id = st.next_variable_id + i ∧
        (lhs.get ⟨i, hl⟩).constraint_id = (costed.get ⟨i, hc⟩).1.constraint_id ∧
        ((costed.get ⟨i, hc⟩).1.type = Rel.ge → (lhs.get ⟨i, hl⟩).coefficient = 1) ∧
        ((costed.get ⟨i, hc⟩).1.type = Rel.le → (lhs.get ⟨i, hl⟩).coefficient = -1) := by
  rcases make_constraints_elastic_ok st key vc st' h with
    ⟨rows, costed, hk, hcost, _, _, hdv, hobj, hlhs, _⟩
  refine ⟨rows, costed, (deficitRows costed st.next_variable_id).1,
    (deficitRows costed st.next_variable_id).2, hk, hcost, hdv, hobj, hlhs,
    deficitRows_fst_length costed st.next_variable_id,
    deficitRows_snd_length costed st.next_variable_id, ?_⟩
  intro i hc hv hl
  rw [deficitRows_fst_get costed st.next_variable_id i hc hv]
  rw [deficitRows_snd_get costed st.next_variable_id i hc hl]
  refine ⟨rfl, rfl, rfl, rfl, rfl, rfl, ?_, ?_⟩
  · intro hge
    show (if (costed.get ⟨i, hc⟩).1.type = Rel.ge then (1 : ℚ) else -1) = 1
    rw [if_pos hge]
  · intro hle
    show (if (costed.get ⟨i, hc⟩).1.type = Rel.ge then (1 : ℚ) else -1) = -1
    rw [if_neg (by rw [hle]; intro hc'; cases hc')]

/-- The generic constraints of the `make_constraints_elastic` doctest
(markets.py lines 1909-1912): set A `>= 10`, set B `<= -100`. -/
def demoGenericRows : List GenericRow :=
  [⟨"A", Rel.ge, 10⟩, ⟨"B", Rel.le, -100⟩]

/-- A market whose `'generic'` constraint set holds the doctest rows. -/
def demoElasticMarket : Market :=
  (set_generic_constraints freshMarket demoGenericRows).1

/-- Counterexample to **C2** as stated: at the doctest input (set A
`>= 10`, constraint id 0; set B `<= -100`, constraint id 1), the lhs table
created by `make_constraints_elastic` carries coefficient `+1` against the
`>=` constraint and `−1` against the `<=` constraint — exactly as the
doctest at markets.py lines 1942-1945 prints, and the opposite of the
claimed `+1` for `<=` / `−1` for `>=`. -/
theorem elastic_deficit_sign_counterexample :
    rhsLookup demoElasticMarket "generic"
      = some [⟨"A", "", "", "", 0, Rel.ge, 10⟩, ⟨"B", "", "", "", 1, Rel.le, -100⟩] ∧
    (make_constraints_elastic demoElasticMarket "generic"
        ViolationCost.ceiling).1.lhs_deficit.lookup ("generic" ++ "_deficit")
      = some [⟨0, 0, 1⟩, ⟨1, 1, -1⟩] ∧
    ¬ ((1 : ℚ) = -1) := by
  refine ⟨by decide, by decide, by decide⟩

/-- Witness for **C2 amended** at the doctest market with the default
`'market_ceiling_price'` violation cost. -/
theorem elastic_deficit_variable_shape_witness :
    ∃ rows costed dv lhs,
      rhsLookup demoElasticMarket "generic" = some rows ∧
      addCostColumn demoElasticMarket.market_ceiling_price rows ViolationCost.ceiling
        = some costed ∧
      (make_constraints_elastic demoElasticMarket "generic"
        ViolationCost.ceiling).1.deficit_vars.lookup ("generic" ++ "_deficit") = some dv ∧
      (make_constraints_elastic demoElasticMarket "generic"
        ViolationCost.ceiling).1.objective_deficit.lookup ("generic" ++ "_deficit")
        = some (dv.map (fun v => (v.variable_id, v.cost))) ∧
      (make_constraints_elastic demoElasticMarket "generic"
        ViolationCost.ceiling).1.lhs_deficit.lookup ("generic" ++ "_deficit") = some lhs ∧
      dv.length = costed.length ∧
      lhs.length = costed.length ∧
      ∀ i (hc : i < costed.length) (hv : i < dv.length) (hl : i < lhs.length),
        (dv.get ⟨i, hv⟩).variable_id = demoElasticMarket.next_variable_id + i ∧
        (dv.get ⟨i, hv⟩).lower_bound = 0 ∧
        (dv.get ⟨i, hv⟩).upper_bound = none ∧
        (dv.get ⟨i, hv⟩).cost = (costed.get ⟨i, hc⟩).2 ∧
        (lhs.get ⟨i, hl⟩).variable_id = demoElasticMarket.next_variable_id + i ∧
        (lhs.get ⟨i, hl⟩).constraint_id = (costed.get ⟨i, hc⟩).1.constraint_id ∧
        ((costed.get ⟨i, hc⟩).1.type = Rel.ge → (lhs.get ⟨i, hl⟩).coefficient = 1) ∧
        ((costed.get ⟨i, hc⟩).1.type = Rel.le → (lhs.get ⟨i, hl⟩).coefficient = -1) :=
  elastic_deficit_variable_shape demoElasticMarket "generic" ViolationCost.ceiling
    (make_constraints_elastic demoElasticMarket "generic" ViolationCost.ceiling).1 rfl

/-- **C3**: `make_constraints_elastic` on a constraint set containing an
`=` constraint fails with `UnsupportedElasticityError` and leaves the model
exactly as it was — in particular, no deficit variable is created for the
`=` constraint. -/
theorem eq_constraint_not_made_elastic (st : Market) (key : String) (rows : List RhsRow)
    (vc : ViolationCost) (c : ℚ)
    (hk : rhsLookup st key = some rows)
    (heq : ∃ r ∈ rows, r.type = Rel.eq)
    (hvc : vc = ViolationCost.ceiling ∨ vc = ViolationCost.num c) :
    make_constraints_elastic st key vc = (st, some Err.unsupportedElasticity) := by
  have hany : ∀ q : ℚ, ((rows.map (fun r => (r, q))).any
      (fun rc => rc.1.type == Rel.eq)) = true := by
    intro q
    rcases heq with ⟨r, hr, htype⟩
    rw [List.any_eq_true]
    exact ⟨(r, q), List.mem_map_of_mem (fun r => (r, q)) hr, beq_iff_eq.mpr htype⟩
  rcases hvc with rfl | rfl
  · unfold make_constraints_elastic
    rw [if_neg (by simp [violationCostOk])]
    rw [hk]
    simp only []
    unfold elasticFinish
    rw [show addCostColumn st.market_ceiling_price rows ViolationCost.ceiling
        = some (rows.map (fun r => (r, st.market_ceiling_price))) from rfl]
    rw [create_deficit_some_err _ _ (hany st.market_ceiling_price)]
  · unfold make_constraints_elastic
    rw [if_neg (by simp [violationCostOk])]
    rw [hk]
    simp only []
    unfold elasticFinish
    rw [show addCostColumn st.market_ceiling_price rows (ViolationCost.num c)
        = some (rows.map (fun r => (r, c))) from rfl]
    rw [create_deficit_some_err _ _ (hany c)]

/-- A market whose `'generic'` constraint set holds one `=` constraint. -/
def demoEqMarket : Market :=
  (set_generic_constraints freshMarket [⟨"A", Rel.eq, 10⟩]).1

/-- Witness for **C3**: the `=` constraint set aborts with
`UnsupportedElasticityError`, state unchanged. -/
theorem eq_constraint_not_made_elastic_witness :
    make_constraints_elastic demoEqMarket "generic" ViolationCost.ceiling
      = (demoEqMarket, some Err.unsupportedElasticity) :=
  eq_constraint_not_made_elastic demoEqMarket "generic"
    [⟨"A", "", "", "", 0, Rel.eq, 10⟩] ViolationCost.ceiling 0 rfl
    ⟨⟨"A", "", "", "", 0, Rel.eq, 10⟩, by decide, rfl⟩ (Or.inl rfl)

/-- The doctest market after `make_constraints_elastic('generic')` (ceiling
cost) and then `make_constraints_elastic('generic', violation_cost=1000.0)`
(markets.py lines 1926-1954). -/
def demoReElastic : Market :=
  (make_constraints_elastic
    (make_constraints_elastic demoElasticMarket "generic" ViolationCost.ceiling).1
    "generic" (ViolationCost.num 1000)).1

/-- Counterexample to **C9** as stated: after the re-invocation the earlier
deficit variables (ids 0 and 1), their objective cost rows and their lhs
rows are *gone* from the model's tables — the three `'generic_deficit'`
entries hold only the second call's rows (ids 2 and 3), exactly as the
doctest at markets.py lines 1949-1954 prints. -/
theorem elastic_reinvocation_counterexample :
    demoReElastic.objective_deficit.lookup "generic_deficit"
        = some [(2, (1000 : ℚ)), (3, (1000 : ℚ))] ∧
    (¬ ∃ p ∈ (demoReElastic.objective_deficit.lookup "generic_deficit").getD [],
        p.1 = 0) ∧
    (¬ ∃ v ∈ (demoReElastic.deficit_vars.lookup "generic_deficit").getD [],
        v.variable_id = 0) ∧
    (¬ ∃ r ∈ (demoReElastic.lhs_deficit.lookup "generic_deficit").getD [],
        r.variable_id = 0) := by
  refine ⟨by decide, by decide, by decide, by decide⟩

/-- **C9 amended**: re-invoking `make_constraints_elastic` with the same
`constraints_key` *overwrites* the three stored `key + '_deficit'` tables
with the new allocation (the earlier deficit variables, costs and lhs rows
are removed, only the latest set remains), while the consumed variable ids
are never retracted: the counter keeps strictly increasing and the new rows
use only fresh ids, so no id of the first invocation is reused. -/
theorem elastic_reinvocation_overwrites (st : Market) (key : String)
    (vc1 vc2 : ViolationCost) (st1 st2 : Market)
    (h1 : make_constraints_elastic st key vc1 = (st1, none))
    (h2 : make_constraints_elastic st1 key vc2 = (st2, none)) :
    st.next_variable_id < st1.next_variable_id ∧
    st1.next_variable_id < st2.next_variable_id ∧
    ∃ dv1 dv2 lhs2,
      st1.deficit_vars.lookup (key ++ "_deficit") = some dv1 ∧
      st2.deficit_vars.lookup (key ++ "_deficit") = some dv2 ∧
      st2.lhs_deficit.lookup (key ++ "_deficit") = some lhs2 ∧
      st2.objective_deficit.lookup (key ++ "_deficit")
        = some (dv2.map (fun v => (v.variable_id, v.cost))) ∧
      (∀ v ∈ dv1, v.variable_id < st1.next_variable_id) ∧
      (∀ v ∈ dv2, st1.next_variable_id ≤ v.variable_id) ∧
      (∀ r ∈ lhs2, st1.next_variable_id ≤ r.variable_id) ∧
      (∀ v1 ∈ dv1, v1 ∉ dv2) := by
  rcases make_constraints_elastic_ok st key vc1 st1 h1 with
    ⟨rows1, costed1, _, _, hne1, _, hdv1, _, _, hnext1⟩
  rcases make_constraints_elastic_ok st1 key vc2 st2 h2 with
    ⟨rows2, costed2, _, _, hne2, _, hdv2, hobj2, hlhs2, hnext2⟩
  have hdv1lt : ∀ v ∈ (deficitRows costed1 st.next_variable_id).1,
      v.variable_id < st1.next_variable_id := by
    intro v hv
    rw [hnext1]
    have : v.variable_id ∈ (deficitRows costed1 st.next_variable_id).1.map
        (fun v => v.variable_id) := List.mem_map_of_mem _ hv
    exact Nat.lt_succ_of_le (le_maxOfIds this)
  have hdv1ne : (deficitRows costed1 st.next_variable_id).1 ≠ [] := by
    intro hc
    apply hne1
    cases costed1 with
    | nil => rfl
    | cons a l => simp [deficitRows] at hc
  have hstlt : st.next_variable_id < st1.next_variable_id := by
    rcases List.exists_mem_of_ne_nil _ hdv1ne with ⟨v, hv⟩
    have h1' := (deficitRows_fst_ids costed1 st.next_variable_id v hv).1
    have h2' := hdv1lt v hv
    omega
  have hdv2ge : ∀ v ∈ (deficitRows costed2 st1.next_variable_id).1,
      st1.next_variable_id ≤ v.variable_id := by
    intro v hv
    exact (deficitRows_fst_ids costed2 st1.next_variable_id v hv).1
  have hdv2ne : (deficitRows costed2 st1.next_variable_id).1 ≠ [] := by
    intro hc
    apply hne2
    cases costed2 with
    | nil => rfl
    | cons a l => simp [deficitRows] at hc
  have hst1lt : st1.next_variable_id < st2.next_variable_id := by
    rcases List.exists_mem_of_ne_nil _ hdv2ne with ⟨v, hv⟩
    have h1' := hdv2ge v hv
    have h2' : v.variable_id < st2.next_variable_id := by
      rw [hnext2]
      have : v.variable_id ∈ (deficitRows costed2 st1.next_variable_id).1.map
          (fun v => v.variable_id) := List.mem_map_of_mem _ hv
      exact Nat.lt_succ_of_le (le_maxOfIds this)
    omega
  refine ⟨hstlt, hst1lt, (deficitRows costed1 st.next_variable_id).1,
    (deficitRows costed2 st1.next_variable_id).1,
    (deficitRows costed2 st1.next_variable_id).2,
    hdv1, hdv2, hlhs2, hobj2, hdv1lt, hdv2ge, ?_, ?_⟩
  · intro r hr
    exact (deficitRows_snd_ids costed2 st1.next_variable_id r hr).1
  · intro v1 hv1 hv2
    have := hdv1lt v1 hv1
    have := hdv2ge v1 hv2
    omega

/-- Witness for **C9 amended** at the doctest market (ids 0,1 then 2,3). -/
theorem elastic_reinvocation_overwrites_witness :
    demoElasticMarket.next_variable_id
        < (make_constraints_elastic demoElasticMarket "generic"
            ViolationCost.ceiling).1.next_variable_id ∧
    (make_constraints_elastic demoElasticMarket "generic"
        ViolationCost.ceiling).1.next_variable_id < demoReElastic.next_variable_id ∧
    ∃ dv1 dv2 lhs2,
      (make_constraints_elastic demoElasticMarket "generic"
        ViolationCost.ceiling).1.deficit_vars.lookup ("generic" ++ "_deficit") = some dv1 ∧
      demoReElastic.deficit_vars.lookup ("generic" ++ "_deficit") = some dv2 ∧
      demoReElastic.lhs_deficit.lookup ("generic" ++ "_deficit") = some lhs2 ∧
      demoReElastic.objective_deficit.lookup ("generic" ++ "_deficit")
        = some (dv2.map (fun v => (v.variable_id, v.cost))) ∧
      (∀ v ∈ dv1, v.variable_id < (make_constraints_elastic demoElasticMarket "generic"
        ViolationCost.ceiling).1.next_variable_id) ∧
      (∀ v ∈ dv2, (make_constraints_elastic demoElasticMarket "generic"
        ViolationCost.ceiling).1.next_variable_id ≤ v.variable_id) ∧
      (∀ r ∈ lhs2, (make_constraints_elastic demoElasticMarket "generic"
        ViolationCost.ceiling).1.next_variable_id ≤ r.variable_id) ∧
      (∀ v1 ∈ dv1, v1 ∉ dv2) :=
  elastic_reinvocation_overwrites demoElasticMarket "generic"
    ViolationCost.ceiling (ViolationCost.num 1000)
    (make_constraints_elastic demoElasticMarket "generic" ViolationCost.ceiling).1
    demoReElastic rfl rfl

theorem make_constraints_elastic_err_state (st : Market) (key : String) (vc : ViolationCost)
    (st' : Market) (e : Err) (h : make_constraints_elastic st key vc = (st', some e))
    (hne : e ≠ Err.emptyMax) : st' = st := by
  unfold make_constraints_elastic at h
  by_cases hok : (!violationCostOk vc) = true
  · rw [if_pos hok] at h
    exact (congrArg Prod.fst h).symm
  · rw [if_neg hok] at h
    cases hk : rhsLookup st key with
    | none =>
        rw [hk] at h
        exact (congrArg Prod.fst h).symm
    | some rows =>
        rw [hk] at h
        simp only [] at h
        unfold elasticFinish at h
        cases hc : create_deficit_variables (addCostColumn st.market_ceiling_price rows vc)
            st.next_variable_id with
        | error e' =>
            rw [hc] at h
            exact (congrArg Prod.fst h).symm
        | ok p =>
            rw [hc] at h
            simp only [] at h
            by_cases hemp : p.1.isEmpty = true
            · rw [if_pos hemp] at h
              exact absurd (Option.some.inj (congrArg Prod.snd h)).symm hne
            · rw [if_neg hemp] at h
              exact absurd (congrArg Prod.snd h) (by simp)

/-- **C4**: a validation or build-order violation aborts the builder call
with an error and leaves the market in its pre-call state — no partial
application.  First conjunct: for every embedded builder call, an error
other than the `max`-of-empty-sequence `ValueError` (which is not a
validation error and does escape mid-body) leaves the state unchanged.
Second conjunct: `make_constraints_elastic` with a `constraints_key`
matching no constraint set aborts with an error (the un-raised
`ModelBuildError` of markets.py line 2005 surfaces as `UnboundLocalError`)
and the model is unchanged.  Third conjunct: an unsupported
`violation_cost` type aborts with an error (the un-raised `ValueError` of
line 2029 surfaces as a `KeyError` on the missing cost column inside
`create_deficit_variables`) and the model is unchanged. -/
theorem builder_validation_is_atomic :
    (∀ (st : Market) (op : BuilderOp) (st' : Market) (e : Err),
      stepOp st op = (st', some e) → e ≠ Err.emptyMax → st' = st) ∧
    (∀ (st : Market) (key : String) (vc : ViolationCost), rhsLookup st key = none →
      ∃ e, make_constraints_elastic st key vc = (st, some e)) ∧
    (∀ (st : Market) (key : String) (rows : List RhsRow), rhsLookup st key = some rows →
      make_constraints_elastic st key ViolationCost.unsupported
        = (st, some Err.keyError)) := by
  refine ⟨?_, ?_, ?_⟩
  · intro st op st' e h hne
    cases op with
    | setUnitInfo u =>
        exact absurd (congrArg Prod.snd h) (by simp [stepOp])
    | setUnitVolumeBids vb =>
        simp only [stepOp] at h
        unfold set_unit_volume_bids at h
        cases hui : st.unit_info with
        | none =>
            rw [hui] at h
            exact (congrArg Prod.fst h).symm
        | some info =>
            rw [hui] at h
            simp only [] at h
            split_ifs at h with h1 h2 h3 h4
            · exact (congrArg Prod.fst h).symm
            · exact (congrArg Prod.fst h).symm
            · exact (congrArg Prod.fst h).symm
            · exact absurd (Option.some.inj (congrArg Prod.snd h)).symm hne
            · exact absurd (congrArg Prod.snd h) (by simp)
    | setUnitPriceBids pb =>
        simp only [stepOp] at h
        unfold set_unit_price_bids at h
        cases hbv : st.bid_vars with
        | none =>
            rw [hbv] at h
            exact (congrArg Prod.fst h).symm
        | some vars =>
            rw [hbv] at h
            simp only [] at h
            split_ifs at h with h1 h2
            · exact (congrArg Prod.fst h).symm
            · exact (congrArg Prod.fst h).symm
            · cases hui : st.unit_info with
              | none =>
                  rw [hui] at h
                  exact (congrArg Prod.fst h).symm
              | some info =>
                  rw [hui] at h
                  exact absurd (congrArg Prod.snd h) (by simp)
    | setJointCapacityConstraints ct =>
        simp only [stepOp] at h
        unfold set_joint_capacity_constraints at h
        simp only [] at h
        split_ifs at h with h1 h2 h3
        · exact (congrArg Prod.fst h).symm
        · exact (congrArg Prod.fst h).symm
        · exact absurd (Option.some.inj (congrArg Prod.snd h)).symm hne
        · exact absurd (congrArg Prod.snd h) (by simp)
    | setEnergyAndRegulationCapacityConstraints rt =>
        simp only [stepOp] at h
        unfold set_energy_and_regulation_capacity_constraints at h
        simp only [] at h
        split_ifs at h with h1 h2 h3
        · exact (congrArg Prod.fst h).symm
        · exact (congrArg Prod.fst h).symm
        · exact absurd (Option.some.inj (congrArg Prod.snd h)).symm hne
        · exact absurd (congrArg Prod.snd h) (by simp)
    | setGenericConstraints g =>
        simp only [stepOp] at h
        unfold set_generic_constraints at h
        simp only [] at h
        split_ifs at h with h1 h2
        · exact (congrArg Prod.fst h).symm
        · exact absurd (Option.some.inj (congrArg Prod.snd h)).symm hne
        · exact absurd (congrArg Prod.snd h) (by simp)
    | setInterconnectors rows =>
        simp only [stepOp] at h
        unfold set_interconnectors at h
        simp only [] at h
        split_ifs at h with h1 h2
        · exact (congrArg Prod.fst h).symm
        · exact absurd (Option.some.inj (congrArg Prod.snd h)).symm hne
        · exact absurd (congrArg Prod.snd h) (by simp)
    | setInterconnectorLosses lf bp =>
        simp only [stepOp] at h
        unfold set_interconnector_losses at h
        cases hiv : st.interconnector_vars with
        | none =>
            rw [hiv] at h
            exact (congrArg Prod.fst h).symm
        | some ivars =>
            rw [hiv] at h
            simp only [] at h
            split_ifs at h with h1 h2 h3 h4
            · exact (congrArg Prod.fst h).symm
            · exact (congrArg Prod.fst h).symm
            · exact absurd (Option.some.inj (congrArg Prod.snd h)).symm hne
            · exact absurd (Option.some.inj (congrArg Prod.snd h)).symm hne
            · exact absurd (congrArg Prod.snd h) (by simp)
    | makeConstraintsElastic key vc =>
        exact make_constraints_elastic_err_state st key vc st' e h hne
  · intro st key vc hk
    by_cases hok : (!violationCostOk vc) = true
    · refine ⟨Err.repeatedRow, ?_⟩
      unfold make_constraints_elastic
      rw [if_pos hok]
    · refine ⟨Err.unboundLocal, ?_⟩
      unfold make_constraints_elastic
      rw [if_neg hok, hk]
  · intro st key rows hk
    unfold make_constraints_elastic
    rw [if_neg (by simp [violationCostOk]), hk]
    simp only []
    unfold elasticFinish
    rw [show addCostColumn st.market_ceiling_price rows ViolationCost.unsupported
        = none from rfl]
    rfl

/-- Witness for **C4**: on the fresh market, which has no constraint sets,
`make_constraints_elastic('generic')` aborts with an error and the model is
unchanged; with a valid key but an unsupported `violation_cost` value it
aborts with the `KeyError` and the model is unchanged. -/
theorem builder_validation_is_atomic_witness :
    (∃ e, make_constraints_elastic freshMarket "generic" ViolationCost.ceiling
      = (freshMarket, some e)) ∧
    make_constraints_elastic demoElasticMarket "generic" ViolationCost.unsupported
      = (demoElasticMarket, some Err.keyError) :=
  ⟨builder_validation_is_atomic.2.1 freshMarket "generic" ViolationCost.ceiling rfl,
   builder_validation_is_atomic.2.2 demoElasticMarket "generic"
     [⟨"A", "", "", "", 0, Rel.ge, 10⟩, ⟨"B", "", "", "", 1, Rel.le, -100⟩] rfl⟩

theorem mem_withIds {α : Type} (l : List α) (n : ℕ) :
    ∀ p ∈ withIds n l, n ≤ p.1 ∧ p.1 < n + l.length := by
  induction l generalizing n with
  | nil => intro p hp; cases hp
  | cons a as ih =>
      intro p hp
      simp only [List.length_cons]
      rcases List.mem_cons.mp hp with rfl | hmem
      · constructor
        · exact Nat.le_refl n
        · show n < n + (as.length + 1)
          omega
      · have := ih (n + 1) p hmem
        omega

theorem bandVars_snd_ge (u s : String) (bs : List BidBand) (n : ℕ) :
    n ≤ (bandVars u s bs n).2 := by
  rw [bandVars_snd]
  omega

theorem bandVars_ids (u s : String) (bs : List BidBand) (n : ℕ) :
    ∀ v ∈ (bandVars u s bs n).1, n ≤ v.variable_id ∧ v.variable_id < (bandVars u s bs n).2 := by
  induction bs generalizing n with
  | nil => intro v hv; cases hv
  | cons b rest ih =>
      intro v hv
      by_cases hb : b.volume = 0
      · rw [bandVars_cons_zero u s b rest n hb] at hv ⊢
        exact ih n v hv
      · rw [bandVars_cons_nonzero u s b rest n hb] at hv ⊢
        rcases List.mem_cons.mp hv with rfl | hmem
        · refine ⟨Nat.le_refl n, ?_⟩
          show n < (bandVars u s rest (n + 1)).2
          have := bandVars_snd_ge u s rest (n + 1)
          omega
        · have := ih (n + 1) v hmem
          constructor
          · omega
          · exact this.2

theorem bids_snd_ge (rows : List VolumeBidRow) (n : ℕ) : n ≤ (bids rows n).2 := by
  rw [bids_snd]
  omega

theorem bids_ids (rows : List VolumeBidRow) (n : ℕ) :
    ∀ v ∈ (bids rows n).1, n ≤ v.variable_id ∧ v.variable_id < (bids rows n).2 := by
  induction rows generalizing n with
  | nil => intro v hv; cases hv
  | cons r rest ih =>
      intro v hv
      rw [bids] at hv ⊢
      simp only [] at hv ⊢
      rcases List.mem_append.mp hv with hmem | hmem
      · have h1 := bandVars_ids r.unit r.service r.bands n v hmem
        have h2 := bids_snd_ge rest (bandVars r.unit r.service r.bands n).2
        exact ⟨h1.1, by omega⟩
      · have h1 := ih (bandVars r.unit r.service r.bands n).2 v hmem
        have h2 := bandVars_snd_ge r.unit r.service r.bands n
        exact ⟨by omega, h1.2⟩

theorem mem_flatMap_updateKey {α : Type} (g : α → List ℕ) (l : List (String × α))
    (k : String) (v : α) (x : ℕ)
    (h : x ∈ (updateKey l k v).flatMap (fun p => g p.2)) :
    x ∈ l.flatMap (fun p => g p.2) ∨ x ∈ g v := by
  induction l with
  | nil =>
      simp only [updateKey, List.flatMap_cons, List.flatMap_nil, List.append_nil] at h
      exact Or.inr h
  | cons p rest ih =>
      by_cases hp : p.1 = k
      · simp only [updateKey, hp, if_true, List.flatMap_cons] at h
        rcases List.mem_append.mp h with hm | hm
        · exact Or.inr hm
        · exact Or.inl (by
            rw [List.flatMap_cons]
            exact List.mem_append_right _ hm)
      · simp only [updateKey, hp, if_false, List.flatMap_cons] at h
        rcases List.mem_append.mp h with hm | hm
        · exact Or.inl (by
            rw [List.flatMap_cons]
            exact List.mem_append_left _ hm)
        · rcases ih hm with hm' | hm'
          · exact Or.inl (by
              rw [List.flatMap_cons]
              exact List.mem_append_right _ hm')
          · exact Or.inr hm'

theorem mem_insertKey_self {α : Type} [BEq α] [LawfulBEq α] (ks : List α) (k : α) :
    k ∈ insertKey ks k := by
  unfold insertKey
  by_cases h : ks.contains k = true
  · rw [if_pos h]
    exact List.mem_of_elem_eq_true h
  · rw [if_neg h]
    exact List.mem_append_right _ (List.mem_singleton.mpr rfl)

theorem mem_insertKey_of_mem {α : Type} [BEq α] (ks : List α) (k x : α) (h : x ∈ ks) :
    x ∈ insertKey ks k := by
  unfold insertKey
  by_cases hc : ks.contains k = true
  · rw [if_pos hc]; exact h
  · rw [if_neg hc]; exact List.mem_append_left _ h

theorem mem_insertKey_inv {α : Type} [BEq α] (ks : List α) (k x : α)
    (h : x ∈ insertKey ks k) : x ∈ ks ∨ x = k := by
  unfold insertKey at h
  by_cases hc : ks.contains k = true
  · rw [if_pos hc] at h; exact Or.inl h
  · rw [if_neg hc] at h
    rcases List.mem_append.mp h with hm | hm
    · exact Or.inl hm
    · exact Or.inr (List.mem_singleton.mp hm)

theorem mem_foldl_insertKey_of_acc {α β : Type} [BEq β] (f : α → β) (l : List α)
    (acc : List β) (x : β) (h : x ∈ acc) :
    x ∈ l.foldl (fun ks e => insertKey ks (f e)) acc := by
  induction l generalizing acc with
  | nil => exact h
  | cons e es ih =>
      rw [List.foldl_cons]
      exact ih _ (mem_insertKey_of_mem _ _ _ h)

theorem mem_foldl_insertKey_of_mem {α β : Type} [BEq β] [LawfulBEq β] (f : α → β)
    (l : List α) (acc : List β) (e : α) (he : e ∈ l) :
    f e ∈ l.foldl (fun ks e => insertKey ks (f e)) acc := by
  induction l generalizing acc with
  | nil => cases he
  | cons a as ih =>
      rw [List.foldl_cons]
      rcases List.mem_cons.mp he with rfl | hmem
      · exact mem_foldl_insertKey_of_acc f as _ _ (mem_insertKey_self acc (f e))
      · exact ih _ hmem

theorem mem_keysOf_of_mem {α β : Type} [BEq β] [LawfulBEq β] (f : α → β) (l : List α)
    (e : α) (he : e ∈ l) : f e ∈ keysOf f l :=
  mem_foldl_insertKey_of_mem f l [] e he

theorem mem_foldl_insertKey_inv {α β : Type} [BEq β] (f : α → β) (l : List α)
    (acc : List β) (x : β) (h : x ∈ l.foldl (fun ks e => insertKey ks (f e)) acc) :
    x ∈ acc ∨ ∃ e ∈ l, f e = x := by
  induction l generalizing acc with
  | nil => exact Or.inl h
  | cons a as ih =>
      rw [List.foldl_cons] at h
      rcases ih _ h with hm | ⟨e, he, hfe⟩
      · rcases mem_insertKey_inv _ _ _ hm with hm' | rfl
        · exact Or.inl hm'
        · exact Or.inr ⟨a, List.mem_cons_self a as, rfl⟩
      · exact Or.inr ⟨e, List.mem_cons_of_mem a he, hfe⟩

theorem mem_keysOf_inv {α β : Type} [BEq β] (f : α → β) (l : List α) (x : β)
    (h : x ∈ keysOf f l) : ∃ e ∈ l, f e = x := by
  rcases mem_foldl_insertKey_inv f l [] x h with hm | hm
  · cases hm
  · exact hm

theorem length_withIds {α : Type} (l : List α) (n : ℕ) :
    (withIds n l).length = l.length := by
  induction l generalizing n with
  | nil => rfl
  | cons a as ih => simp only [withIds, List.length_cons, ih]

/-- The per-call id facts: counters never decrease, and every id present
after the call either was already present or is fresh — at least the old
counter and below the new counter. -/
def StepIdFacts (st st' : Market) : Prop :=
  st.next_variable_id ≤ st'.next_variable_id ∧
  st.next_constraint_id ≤ st'.next_constraint_id ∧
  (∀ x ∈ allVarIds st', x ∈ allVarIds st ∨
    (st.next_variable_id ≤ x ∧ x < st'.next_variable_id)) ∧
  (∀ x ∈ allConstraintIds st', x ∈ allConstraintIds st ∨
    (st.next_constraint_id ≤ x ∧ x < st'.next_constraint_id))

theorem stepIdFacts_refl (st : Market) : StepIdFacts st st :=
  ⟨Nat.le_refl _, Nat.le_refl _, fun _ hx => Or.inl hx, fun _ hx => Or.inl hx⟩

theorem set_unit_volume_bids_ids (st : Market) (vb : List VolumeBidRow) :
    StepIdFacts st (set_unit_volume_bids st vb).1 := by
  unfold set_unit_volume_bids
  cases hui : st.unit_info with
  | none => exact stepIdFacts_refl st
  | some info =>
      simp only []
      split_ifs with h1 h2 h3 h4
      · exact stepIdFacts_refl st
      · exact stepIdFacts_refl st
      · exact stepIdFacts_refl st
      · -- max() of the empty id column raised after the assignment
        have hnil : (bids vb st.next_variable_id).1 = [] := by
          cases hb : (bids vb st.next_variable_id).1 with
          | nil => rfl
          | cons a l => rw [hb] at h4; simp [List.isEmpty] at h4
        refine ⟨Nat.le_refl _, Nat.le_refl _, ?_, fun x hx => Or.inl hx⟩
        intro x hx
        simp only [allVarIds, Option.getD_some, hnil, List.map_nil, List.nil_append,
          List.mem_append] at hx
        refine Or.inl ?_
        simp only [allVarIds, List.mem_append]
        tauto
      · -- success: variables allocated, counter advanced past their max
        have hne : (bids vb st.next_variable_id).1 ≠ [] := by
          intro hc
          rw [hc] at h4
          exact h4 rfl
        rcases List.exists_mem_of_ne_nil _ hne with ⟨v, hv⟩
        have hvge := (bids_ids vb st.next_variable_id v hv).1
        have hvle := le_maxOfIds (List.mem_map_of_mem (fun v => v.variable_id) hv)
        simp only [] at hvle
        refine ⟨?_, Nat.le_refl _, ?_, fun x hx => Or.inl hx⟩
        · show st.next_variable_id ≤
            maxOfIds ((bids vb st.next_variable_id).1.map (fun v => v.variable_id)) + 1
          omega
        · intro x hx
          simp only [allVarIds, Option.getD_some, List.mem_append] at hx
          rcases hx with ((((hx | hx) | hx) | hx) | hx)
          · rcases List.mem_map.mp hx with ⟨w, hw, rfl⟩
            refine Or.inr ⟨(bids_ids vb st.next_variable_id w hw).1, ?_⟩
            have hwle := le_maxOfIds (List.mem_map_of_mem (fun v => v.variable_id) hw)
            simp only [] at hwle
            show w.variable_id <
              maxOfIds ((bids vb st.next_variable_id).1.map (fun v => v.variable_id)) + 1
            omega
          · exact Or.inl (by simp only [allVarIds, List.mem_append]; tauto)
          · exact Or.inl (by simp only [allVarIds, List.mem_append]; tauto)
          · exact Or.inl (by simp only [allVarIds, List.mem_append]; tauto)
          · exact Or.inl (by simp only [allVarIds, List.mem_append]; tauto)

theorem mem_flatMap_updateKey_rhs (l : List (String × List RhsRow)) (k : String)
    (v : List RhsRow) (x : ℕ)
    (h : x ∈ (updateKey l k v).flatMap (fun p => p.2.map (fun r => r.constraint_id))) :
    x ∈ l.flatMap (fun p => p.2.map (fun r => r.constraint_id))
      ∨ x ∈ v.map (fun r => r.constraint_id) :=
  mem_flatMap_updateKey (fun a : List RhsRow => a.map (fun r => r.constraint_id)) l k v x h

theorem mem_flatMap_updateKey_dyn (l : List (String × List DynamicRhsRow)) (k : String)
    (v : List DynamicRhsRow) (x : ℕ)
    (h : x ∈ (updateKey l k v).flatMap (fun p => p.2.map (fun r => r.constraint_id))) :
    x ∈ l.flatMap (fun p => p.2.map (fun r => r.constraint_id))
      ∨ x ∈ v.map (fun r => r.constraint_id) :=
  mem_flatMap_updateKey (fun a : List DynamicRhsRow => a.map (fun r => r.constraint_id)) l k v x h

theorem mem_flatMap_updateKey_deficit (l : List (String × List DeficitVar)) (k : String)
    (v : List DeficitVar) (x : ℕ)
    (h : x ∈ (updateKey l k v).flatMap (fun p => p.2.map (fun w => w.variable_id))) :
    x ∈ l.flatMap (fun p => p.2.map (fun w => w.variable_id))
      ∨ x ∈ v.map (fun w => w.variable_id) :=
  mem_flatMap_updateKey (fun a : List DeficitVar => a.map (fun w => w.variable_id)) l k v x h

theorem set_unit_price_bids_ids (st : Market) (pb : List PriceBidRow) :
    StepIdFacts st (set_unit_price_bids st pb).1 := by
  unfold set_unit_price_bids
  cases hbv : st.bid_vars with
  | none => exact stepIdFacts_refl st
  | some vars =>
      simp only []
      split_ifs with h1 h2
      · exact stepIdFacts_refl st
      · exact stepIdFacts_refl st
      · cases hui : st.unit_info with
        | none => exact stepIdFacts_refl st
        | some info =>
            simp only []
            refine ⟨Nat.le_refl _, Nat.le_refl _, ?_, fun x hx => Or.inl hx⟩
            intro x hx
            refine Or.inl ?_
            simp only [allVarIds, Option.getD_some, hbv]
            simpa only [allVarIds, Option.getD_some] using hx

theorem set_joint_capacity_constraints_ids (st : Market) (ct : List Trapezium) :
    StepIdFacts st (set_joint_capacity_constraints st ct).1 := by
  unfold set_joint_capacity_constraints
  simp only [joint_capacity_constraints]
  split_ifs with h1 h2 h3
  · exact stepIdFacts_refl st
  · exact stepIdFacts_refl st
  · have hnil : jointCapacityRhs ct st.next_constraint_id = [] := by
      cases hb : jointCapacityRhs ct st.next_constraint_id with
      | nil => rfl
      | cons a l => rw [hb] at h3; simp [List.isEmpty] at h3
    refine ⟨Nat.le_refl _, Nat.le_refl _, fun x hx => Or.inl hx, ?_⟩
    intro x hx
    simp only [allConstraintIds, List.mem_append] at hx
    rcases hx with (hx | hx) | hx
    · rcases mem_flatMap_updateKey_rhs _ _ _ _ hx with hold | hnew
      · exact Or.inl (by simp only [allConstraintIds, List.mem_append]; tauto)
      · rw [hnil] at hnew
        cases hnew
    · exact Or.inl (by simp only [allConstraintIds, List.mem_append]; tauto)
    · exact Or.inl (by simp only [allConstraintIds, List.mem_append]; tauto)
  · have hne : jointCapacityRhs ct st.next_constraint_id ≠ [] := by
      intro hc
      rw [hc] at h3
      exact h3 rfl
    rcases List.exists_mem_of_ne_nil _ hne with ⟨r, hr⟩
    have hrge := (jcc_rhs_ids ct st.next_constraint_id r hr).1
    have hrle := le_maxOfIds (List.mem_map_of_mem (fun r => r.constraint_id) hr)
    simp only [] at hrle
    refine ⟨Nat.le_refl _, ?_, fun x hx => Or.inl hx, ?_⟩
    · show st.next_constraint_id ≤
        maxOfIds ((jointCapacityRhs ct st.next_constraint_id).map
          (fun r => r.constraint_id)) + 1
      omega
    · intro x hx
      simp only [allConstraintIds, List.mem_append] at hx
      rcases hx with (hx | hx) | hx
      · rcases mem_flatMap_updateKey_rhs _ _ _ _ hx with hold | hnew
        · exact Or.inl (by simp only [allConstraintIds, List.mem_append]; tauto)
        · rcases List.mem_map.mp hnew with ⟨rr, hrr, rfl⟩
          refine Or.inr ⟨(jcc_rhs_ids ct st.next_constraint_id rr hrr).1, ?_⟩
          have hle := le_maxOfIds (List.mem_map_of_mem (fun r => r.constraint_id) hrr)
          simp only [] at hle
          show rr.constraint_id <
            maxOfIds ((jointCapacityRhs ct st.next_constraint_id).map
              (fun r => r.constraint_id)) + 1
          omega
      · exact Or.inl (by simp only [allConstraintIds, List.mem_append]; tauto)
      · exact Or.inl (by simp only [allConstraintIds, List.mem_append]; tauto)

theorem set_energy_and_regulation_capacity_constraints_ids (st : Market)
    (rt : List Trapezium) :
    StepIdFacts st (set_energy_and_regulation_capacity_constraints st rt).1 := by
  unfold set_energy_and_regulation_capacity_constraints
  simp only [energy_and_regulation_capacity_constraints]
  split_ifs with h1 h2 h3
  · exact stepIdFacts_refl st
  · exact stepIdFacts_refl st
  · have hnil : jointCapacityRhs rt st.next_constraint_id = [] := by
      cases hb : jointCapacityRhs rt st.next_constraint_id with
      | nil => rfl
      | cons a l => rw [hb] at h3; simp [List.isEmpty] at h3
    refine ⟨Nat.le_refl _, Nat.le_refl _, fun x hx => Or.inl hx, ?_⟩
    intro x hx
    simp only [allConstraintIds, List.mem_append] at hx
    rcases hx with (hx | hx) | hx
    · rcases mem_flatMap_updateKey_rhs _ _ _ _ hx with hold | hnew
      · exact Or.inl (by simp only [allConstraintIds, List.mem_append]; tauto)
      · rw [hnil] at hnew
        cases hnew
    · exact Or.inl (by simp only [allConstraintIds, List.mem_append]; tauto)
    · exact Or.inl (by simp only [allConstraintIds, List.mem_append]; tauto)
  · have hne : jointCapacityRhs rt st.next_constraint_id ≠ [] := by
      intro hc
      rw [hc] at h3
      exact h3 rfl
    rcases List.exists_mem_of_ne_nil _ hne with ⟨r, hr⟩
    have hrge := (jcc_rhs_ids rt st.next_constraint_id r hr).1
    have hrle := le_maxOfIds (List.mem_map_of_mem (fun r => r.constraint_id) hr)
    simp only [] at hrle
    refine ⟨Nat.le_refl _, ?_, fun x hx => Or.inl hx, ?_⟩
    · show st.next_constraint_id ≤
        maxOfIds ((jointCapacityRhs rt st.next_constraint_id).map
          (fun r => r.constraint_id)) + 1
      omega
    · intro x hx
      simp only [allConstraintIds, List.mem_append] at hx
      rcases hx with (hx | hx) | hx
      · rcases mem_flatMap_updateKey_rhs _ _ _ _ hx with hold | hnew
        · exact Or.inl (by simp only [allConstraintIds, List.mem_append]; tauto)
        · rcases List.mem_map.mp hnew with ⟨rr, hrr, rfl⟩
          refine Or.inr ⟨(jcc_rhs_ids rt st.next_constraint_id rr hrr).1, ?_⟩
          have hle := le_maxOfIds (List.mem_map_of_mem (fun r => r.constraint_id) hrr)
          simp only [] at hle
          show rr.constraint_id <
            maxOfIds ((jointCapacityRhs rt st.next_constraint_id).map
              (fun r => r.constraint_id)) + 1
          omega
      · exact Or.inl (by simp only [allConstraintIds, List.mem_append]; tauto)
      · exact Or.inl (by simp only [allConstraintIds, List.mem_append]; tauto)

theorem generic_rows_ids (g : List GenericRow) (nc : ℕ) :
    ∀ x ∈ ((withIds nc g).map
        (fun p => (⟨p.2.set, "", "", "", p.1, p.2.type, p.2.rhs⟩ : RhsRow))).map
          (fun r => r.constraint_id),
      nc ≤ x ∧ x < nc + g.length := by
  intro x hx
  rw [List.map_map] at hx
  rcases List.mem_map.mp hx with ⟨p, hp, rfl⟩
  have := mem_withIds g nc p hp
  exact ⟨this.1, this.2⟩

theorem set_generic_constraints_ids (st : Market) (g : List GenericRow) :
    StepIdFacts st (set_generic_constraints st g).1 := by
  unfold set_generic_constraints
  simp only []
  split_ifs with h1 h2
  · exact stepIdFacts_refl st
  · have hnil : ((withIds st.next_constraint_id g).map
        (fun p => (⟨p.2.set, "", "", "", p.1, p.2.type, p.2.rhs⟩ : RhsRow))) = [] := by
      cases hb : ((withIds st.next_constraint_id g).map
          (fun p => (⟨p.2.set, "", "", "", p.1, p.2.type, p.2.rhs⟩ : RhsRow))) with
      | nil => rfl
      | cons a l => rw [hb] at h2; simp [List.isEmpty] at h2
    refine ⟨Nat.le_refl _, Nat.le_refl _, fun x hx => Or.inl hx, ?_⟩
    intro x hx
    simp only [allConstraintIds, List.mem_append] at hx
    rcases hx with (hx | hx) | hx
    · rcases mem_flatMap_updateKey_rhs _ _ _ _ hx with hold | hnew
      · exact Or.inl (by simp only [allConstraintIds, List.mem_append]; tauto)
      · rw [hnil] at hnew
        cases hnew
    · exact Or.inl (by simp only [allConstraintIds, List.mem_append]; tauto)
    · exact Or.inl (by simp only [allConstraintIds, List.mem_append]; tauto)
  · have hne : ((withIds st.next_constraint_id g).map
        (fun p => (⟨p.2.set, "", "", "", p.1, p.2.type, p.2.rhs⟩ : RhsRow))) ≠ [] := by
      intro hc
      rw [hc] at h2
      exact h2 rfl
    rcases List.exists_mem_of_ne_nil _ hne with ⟨r, hr⟩
    have hrge := (generic_rows_ids g st.next_constraint_id r.constraint_id
      (List.mem_map_of_mem (fun r => r.constraint_id) hr)).1
    have hrle := le_maxOfIds (List.mem_map_of_mem (fun r => r.constraint_id) hr)
    simp only [] at hrle
    refine ⟨Nat.le_refl _, ?_, fun x hx => Or.inl hx, ?_⟩
    · show st.next_constraint_id ≤
        maxOfIds (((withIds st.next_constraint_id g).map
          (fun p => (⟨p.2.set, "", "", "", p.1, p.2.type, p.2.rhs⟩ : RhsRow))).map
            (fun r => r.constraint_id)) + 1
      omega
    · intro x hx
      simp only [allConstraintIds, List.mem_append] at hx
      rcases hx with (hx | hx) | hx
      · rcases mem_flatMap_updateKey_rhs _ _ _ _ hx with hold | hnew
        · exact Or.inl (by simp only [allConstraintIds, List.mem_append]; tauto)
        · refine Or.inr ⟨(generic_rows_ids g st.next_constraint_id x hnew).1, ?_⟩
          have hle := le_maxOfIds hnew
          show x < maxOfIds (((withIds st.next_constraint_id g).map
            (fun p => (⟨p.2.set, "", "", "", p.1, p.2.type, p.2.rhs⟩ : RhsRow))).map
              (fun r => r.constraint_id)) + 1
          omega
      · exact Or.inl (by simp only [allConstraintIds, List.mem_append]; tauto)
      · exact Or.inl (by simp only [allConstraintIds, List.mem_append]; tauto)

theorem inter_vars_ids (rows : List InterRow) (nv : ℕ) :
    ∀ x ∈ ((withIds nv rows).map
        (fun p => (⟨p.1, p.2.interconnector, p.2.min, p.2.max⟩ : InterVar))).map
          (fun v => v.variable_id),
      nv ≤ x ∧ x < nv + rows.length := by
  intro x hx
  rw [List.map_map] at hx
  rcases List.mem_map.mp hx with ⟨p, hp, rfl⟩
  have := mem_withIds rows nv p hp
  exact ⟨this.1, this.2⟩

theorem set_interconnectors_ids (st : Market) (rows : List InterRow) :
    StepIdFacts st (set_interconnectors st rows).1 := by
  unfold set_interconnectors
  simp only []
  split_ifs with h1 h2
  · exact stepIdFacts_refl st
  · have hnil : ((withIds st.next_variable_id rows).map
        (fun p => (⟨p.1, p.2.interconnector, p.2.min, p.2.max⟩ : InterVar))) = [] := by
      cases hb : ((withIds st.next_variable_id rows).map
          (fun p => (⟨p.1, p.2.interconnector, p.2.min, p.2.max⟩ : InterVar))) with
      | nil => rfl
      | cons a l => rw [hb] at h2; simp [List.isEmpty] at h2
    refine ⟨Nat.le_refl _, Nat.le_refl _, ?_, fun x hx => Or.inl hx⟩
    intro x hx
    simp only [allVarIds, Option.getD_some, hnil, List.map_nil, List.mem_append] at hx
    refine Or.inl ?_
    simp only [allVarIds, List.mem_append]
    tauto
  · have hne : ((withIds st.next_variable_id rows).map
        (fun p => (⟨p.1, p.2.interconnector, p.2.min, p.2.max⟩ : InterVar))) ≠ [] := by
      intro hc
      rw [hc] at h2
      exact h2 rfl
    rcases List.exists_mem_of_ne_nil _ hne with ⟨v, hv⟩
    have hvge := (inter_vars_ids rows st.next_variable_id v.variable_id
      (List.mem_map_of_mem (fun v => v.variable_id) hv)).1
    have hvle := le_maxOfIds (List.mem_map_of_mem (fun v => v.variable_id) hv)
    simp only [] at hvle
    refine ⟨?_, Nat.le_refl _, ?_, fun x hx => Or.inl hx⟩
    · show st.next_variable_id ≤
        maxOfIds (((withIds st.next_variable_id rows).map
          (fun p => (⟨p.1, p.2.interconnector, p.2.min, p.2.max⟩ : InterVar))).map
            (fun v => v.variable_id)) + 1
      omega
    · intro x hx
      simp only [allVarIds, Option.getD_some, List.mem_append] at hx
      rcases hx with ((((hx | hx) | hx) | hx) | hx)
      · exact Or.inl (by simp only [allVarIds, List.mem_append]; tauto)
      · refine Or.inr ⟨(inter_vars_ids rows st.next_variable_id x hx).1, ?_⟩
        have hle := le_maxOfIds hx
        show x < maxOfIds (((withIds st.next_variable_id rows).map
          (fun p => (⟨p.1, p.2.interconnector, p.2.min, p.2.max⟩ : InterVar))).map
            (fun v => v.variable_id)) + 1
        omega
      · exact Or.inl (by simp only [allVarIds, List.mem_append]; tauto)
      · exact Or.inl (by simp only [allVarIds, List.mem_append]; tauto)
      · exact Or.inl (by simp only [allVarIds, List.mem_append]; tauto)

theorem create_loss_variables_ids (lf : List LossFnRow) (n : ℕ) :
    ∀ x ∈ (create_loss_variables lf n).map (fun v => v.variable_id),
      n ≤ x ∧ x < n + lf.length := by
  intro x hx
  rw [create_loss_variables, List.map_map] at hx
  rcases List.mem_map.mp hx with ⟨p, hp, rfl⟩
  exact mem_withIds lf n p hp

theorem create_weights_ids (bp : List BreakPointRow) (n : ℕ) :
    ∀ x ∈ (create_weights bp n).map (fun v => v.variable_id),
      n ≤ x ∧ x < n + bp.length := by
  intro x hx
  rw [create_weights, List.map_map] at hx
  rcases List.mem_map.mp hx with ⟨p, hp, rfl⟩
  exact mem_withIds bp n p hp

theorem create_weights_must_sum_to_one_ids (inters : List String) (n : ℕ) :
    ∀ x ∈ (create_weights_must_sum_to_one inters n).map (fun r => r.constraint_id),
      n ≤ x ∧ x < n + inters.length := by
  intro x hx
  rw [create_weights_must_sum_to_one, List.map_map] at hx
  rcases List.mem_map.mp hx with ⟨p, hp, rfl⟩
  exact mem_withIds inters n p hp

theorem link_weights_to_inter_flow_ids (ivars : List InterVar) (inters : List String) (n : ℕ) :
    ∀ x ∈ (link_weights_to_inter_flow ivars inters n).map (fun r => r.constraint_id),
      n ≤ x ∧ x < n + inters.length := by
  intro x hx
  rw [link_weights_to_inter_flow, List.map_map] at hx
  rcases List.mem_map.mp hx with ⟨p, hp, rfl⟩
  exact mem_withIds inters n p hp

theorem link_inter_loss_ids (lvars : List SimpleVar) (inters : List String) (n : ℕ) :
    ∀ x ∈ (link_inter_loss_to_interpolation_weights lvars inters n).map
        (fun r => r.constraint_id),
      n ≤ x ∧ x < n + inters.length := by
  intro x hx
  rw [link_inter_loss_to_interpolation_weights, List.map_map] at hx
  rcases List.mem_map.mp hx with ⟨p, hp, rfl⟩
  exact mem_withIds inters n p hp

theorem withIds_map_ne_nil {α β : Type} (f : ℕ × α → β) (l : List α) (n : ℕ)
    (h : l ≠ []) : (withIds n l).map f ≠ [] := by
  intro hc
  apply h
  have := congrArg List.length hc
  rw [List.length_map, length_withIds] at this
  exact List.length_eq_zero.mp this

theorem isEmpty_false_ne_nil {α : Type} {l : List α} (h : ¬ l.isEmpty = true) : l ≠ [] := by
  intro hc
  rw [hc] at h
  exact h rfl

theorem set_interconnector_losses_ids (st : Market) (lf : List LossFnRow)
    (bp : List BreakPointRow) :
    StepIdFacts st (set_interconnector_losses st lf bp).1 := by
  unfold set_interconnector_losses
  cases hiv : st.interconnector_vars with
  | none => exact stepIdFacts_refl st
  | some ivars =>
      simp only []
      split_ifs with h1 h2 h3 h4
      · exact stepIdFacts_refl st
      · exact stepIdFacts_refl st
      · refine ⟨Nat.le_refl _, Nat.le_refl _, ?_, fun x hx => Or.inl hx⟩
        intro x hx
        refine Or.inl ?_
        simp only [allVarIds, Option.getD_some, hiv]
        simpa only [allVarIds, Option.getD_some] using hx
      · refine ⟨Nat.le_refl _, Nat.le_refl _, ?_, fun x hx => Or.inl hx⟩
        intro x hx
        refine Or.inl ?_
        simp only [allVarIds, Option.getD_some, hiv]
        simpa only [allVarIds, Option.getD_some] using hx
      · set lvars := create_loss_variables lf st.next_variable_id with hlvars
        set nv1 := maxOfIds (lvars.map (fun v => v.variable_id)) + 1 with hnv1
        set wvars := create_weights bp nv1 with hwvars
        set inters := keysOf (fun v : SimpleVar => v.interconnector) wvars with hinters
        set wsum := create_weights_must_sum_to_one inters st.next_constraint_id with hwsum
        set nc1 := maxOfIds (wsum.map (fun r => r.constraint_id)) + 1 with hnc1
        set linkFlow := link_weights_to_inter_flow ivars inters nc1 with hlf2
        set nc2 := maxOfIds (linkFlow.map (fun r => r.constraint_id)) + 1 with hnc2
        set linkLoss := link_inter_loss_to_interpolation_weights lvars inters nc2 with hll
        have hlfne : lf ≠ [] := isEmpty_false_ne_nil h3
        have hbpne : bp ≠ [] := isEmpty_false_ne_nil h4
        have hlvne : lvars ≠ [] := by
          rw [hlvars, create_loss_variables]
          exact withIds_map_ne_nil _ _ _ hlfne
        have hwvne : wvars ≠ [] := by
          rw [hwvars, create_weights]
          exact withIds_map_ne_nil _ _ _ hbpne
        have hintersne : inters ≠ [] := by
          rcases List.exists_mem_of_ne_nil _ hwvne with ⟨w, hw⟩
          have hmem := mem_keysOf_of_mem (fun v : SimpleVar => v.interconnector) wvars w hw
          rw [hinters]
          exact List.ne_nil_of_mem hmem
        have hwsumne : wsum ≠ [] := by
          rw [hwsum, create_weights_must_sum_to_one]
          exact withIds_map_ne_nil _ _ _ hintersne
        have hlinkFlowne : linkFlow ≠ [] := by
          rw [hlf2, link_weights_to_inter_flow]
          exact withIds_map_ne_nil _ _ _ hintersne
        -- a loss variable and its id bounds
        rcases List.exists_mem_of_ne_nil _ hlvne with ⟨v0, hv0⟩
        have hv0m : v0.variable_id ∈ lvars.map (fun v => v.variable_id) :=
          List.mem_map_of_mem _ hv0
        have hv0ge : st.next_variable_id ≤ v0.variable_id := by
          have hm := hv0m
          rw [hlvars] at hm
          exact (create_loss_variables_ids lf st.next_variable_id v0.variable_id hm).1
        have hnv1gt : st.next_variable_id < nv1 := by
          have hle := le_maxOfIds hv0m
          rw [hnv1]
          omega
        have hv0in : v0.variable_id ∈ (lvars ++ wvars).map (fun v => v.variable_id) := by
          rw [List.map_append]
          exact List.mem_append_left _ hv0m
        -- a weights-sum constraint and its id bounds
        rcases List.exists_mem_of_ne_nil _ hwsumne with ⟨s0, hs0⟩
        have hs0m : s0.constraint_id ∈ wsum.map (fun r => r.constraint_id) :=
          List.mem_map_of_mem _ hs0
        have hs0ge : st.next_constraint_id ≤ s0.constraint_id := by
          have hm := hs0m
          rw [hwsum] at hm
          exact (create_weights_must_sum_to_one_ids inters st.next_constraint_id
            s0.constraint_id hm).1
        have hnc1gt : st.next_constraint_id < nc1 := by
          have hle := le_maxOfIds hs0m
          rw [hnc1]
          omega
        have hs0in : s0.constraint_id ∈ wsum.map (fun r => r.constraint_id)
            ++ (linkFlow ++ linkLoss).map (fun r => r.constraint_id) :=
          List.mem_append_left _ hs0m
        -- a link-flow constraint for the nc2 bound
        rcases List.exists_mem_of_ne_nil _ hlinkFlowne with ⟨f0, hf0⟩
        have hf0m : f0.constraint_id ∈ linkFlow.map (fun r => r.constraint_id) :=
          List.mem_map_of_mem _ hf0
        have hf0ge : nc1 ≤ f0.constraint_id := by
          have hm := hf0m
          rw [hlf2] at hm
          exact (link_weights_to_inter_flow_ids ivars inters nc1 f0.constraint_id hm).1
        have hnc2gt : nc1 < nc2 := by
          have hle := le_maxOfIds hf0m
          rw [hnc2]
          omega
        refine ⟨?_, ?_, ?_, ?_⟩
        · show st.next_variable_id
            ≤ maxOfIds ((lvars ++ wvars).map (fun v => v.variable_id)) + 1
          have hle := le_maxOfIds hv0in
          omega
        · show st.next_constraint_id
            ≤ maxOfIds (wsum.map (fun r => r.constraint_id)
                ++ (linkFlow ++ linkLoss).map (fun r => r.constraint_id)) + 1
          have hle := le_maxOfIds hs0in
          omega
        · intro x hx
          simp only [allVarIds, Option.getD_some, List.mem_append] at hx
          rcases hx with ((((hx | hx) | hx) | hx) | hx)
          · exact Or.inl (by simp only [allVarIds, List.mem_append]; tauto)
          · exact Or.inl
              (by simp only [allVarIds, List.mem_append, hiv, Option.getD_some]; tauto)
          · -- a loss variable id
            have hxin : x ∈ (lvars ++ wvars).map (fun v => v.variable_id) := by
              rw [List.map_append]
              exact List.mem_append_left _ hx
            have hm := hx
            rw [hlvars] at hm
            refine Or.inr ⟨(create_loss_variables_ids lf st.next_variable_id x hm).1, ?_⟩
            show x < maxOfIds ((lvars ++ wvars).map (fun v => v.variable_id)) + 1
            have hle := le_maxOfIds hxin
            omega
          · -- a weight variable id
            have hxin : x ∈ (lvars ++ wvars).map (fun v => v.variable_id) := by
              rw [List.map_append]
              exact List.mem_append_right _ hx
            have hm := hx
            rw [hwvars] at hm
            have hge := (create_weights_ids bp nv1 x hm).1
            refine Or.inr ⟨by omega, ?_⟩
            show x < maxOfIds ((lvars ++ wvars).map (fun v => v.variable_id)) + 1
            have hle := le_maxOfIds hxin
            omega
          · exact Or.inl (by simp only [allVarIds, List.mem_append]; tauto)
        · intro x hx
          simp only [allConstraintIds, List.mem_append] at hx
          rcases hx with (hx | hx) | hx
          · rcases mem_flatMap_updateKey_rhs _ _ _ _ hx with hold | hnew
            · exact Or.inl (by simp only [allConstraintIds, List.mem_append]; tauto)
            · have hm := hnew
              rw [hwsum] at hm
              have hge := (create_weights_must_sum_to_one_ids inters
                st.next_constraint_id x hm).1
              refine Or.inr ⟨hge, ?_⟩
              show x < maxOfIds (wsum.map (fun r => r.constraint_id)
                  ++ (linkFlow ++ linkLoss).map (fun r => r.constraint_id)) + 1
              have hle := le_maxOfIds (List.mem_append_left
                ((linkFlow ++ linkLoss).map (fun r => r.constraint_id)) hnew)
              omega
          · exact Or.inl (by simp only [allConstraintIds, List.mem_append]; tauto)
          · rcases mem_flatMap_updateKey_dyn _ _ _ _ hx with hold | hnew
            · exact Or.inl (by simp only [allConstraintIds, List.mem_append]; tauto)
            · have hxin : x ∈ wsum.map (fun r => r.constraint_id)
                  ++ (linkFlow ++ linkLoss).map (fun r => r.constraint_id) :=
                List.mem_append_right _ hnew
              have hlt : x < maxOfIds (wsum.map (fun r => r.constraint_id)
                  ++ (linkFlow ++ linkLoss).map (fun r => r.constraint_id)) + 1 := by
                have hle := le_maxOfIds hxin
                omega
              rw [List.map_append] at hnew
              rcases List.mem_append.mp hnew with hm | hm
              · rw [hlf2] at hm
                have hge := (link_weights_to_inter_flow_ids ivars inters nc1 x hm).1
                exact Or.inr ⟨by omega, hlt⟩
              · rw [hll] at hm
                have hge := (link_inter_loss_ids lvars inters nc2 x hm).1
                exact Or.inr ⟨by omega, hlt⟩

theorem make_constraints_elastic_ids (st : Market) (key : String) (vc : ViolationCost) :
    StepIdFacts st (make_constraints_elastic st key vc).1 := by
  unfold make_constraints_elastic
  by_cases hok : (!violationCostOk vc) = true
  · rw [if_pos hok]
    exact stepIdFacts_refl st
  · rw [if_neg hok]
    cases hk : rhsLookup st key with
    | none => exact stepIdFacts_refl st
    | some rows =>
        simp only []
        unfold elasticFinish
        cases hcost : addCostColumn st.market_ceiling_price rows vc with
        | none =>
            simp only [create_deficit_variables]
            exact stepIdFacts_refl st
        | some costed =>
            by_cases heq : costed.any (fun r => r.1.type == Rel.eq) = true
            · rw [create_deficit_some_err costed st.next_variable_id heq]
              exact stepIdFacts_refl st
            · rw [create_deficit_some_ok costed st.next_variable_id
                (Bool.eq_false_iff.mpr heq)]
              simp only []
              by_cases hemp : (deficitRows costed st.next_variable_id).1.isEmpty = true
              · rw [if_pos hemp]
                have hnil : (deficitRows costed st.next_variable_id).1 = [] := by
                  cases hb : (deficitRows costed st.next_variable_id).1 with
                  | nil => rfl
                  | cons a l => rw [hb] at hemp; simp [List.isEmpty] at hemp
                refine ⟨Nat.le_refl _, Nat.le_refl _, ?_, fun x hx => Or.inl hx⟩
                intro x hx
                simp only [allVarIds, List.mem_append] at hx
                rcases hx with ((((hx | hx) | hx) | hx) | hx)
                · exact Or.inl (by simp only [allVarIds, List.mem_append]; tauto)
                · exact Or.inl (by simp only [allVarIds, List.mem_append]; tauto)
                · exact Or.inl (by simp only [allVarIds, List.mem_append]; tauto)
                · exact Or.inl (by simp only [allVarIds, List.mem_append]; tauto)
                · rcases mem_flatMap_updateKey_deficit _ _ _ _ hx with hold | hnew
                  · exact Or.inl (by simp only [allVarIds, List.mem_append]; tauto)
                  · rw [hnil] at hnew
                    cases hnew
              · rw [if_neg hemp]
                have hne : (deficitRows costed st.next_variable_id).1 ≠ [] :=
                  isEmpty_false_ne_nil hemp
                rcases List.exists_mem_of_ne_nil _ hne with ⟨v0, hv0⟩
                have hv0m : v0.variable_id ∈
                    (deficitRows costed st.next_variable_id).1.map
                      (fun v => v.variable_id) := List.mem_map_of_mem _ hv0
                have hv0ge := (deficitRows_fst_ids costed st.next_variable_id v0 hv0).1
                refine ⟨?_, Nat.le_refl _, ?_, fun x hx => Or.inl hx⟩
                · show st.next_variable_id ≤
                    maxOfIds ((deficitRows costed st.next_variable_id).1.map
                      (fun v => v.variable_id)) + 1
                  have hle := le_maxOfIds hv0m
                  omega
                · intro x hx
                  simp only [allVarIds, List.mem_append] at hx
                  rcases hx with ((((hx | hx) | hx) | hx) | hx)
                  · exact Or.inl (by simp only [allVarIds, List.mem_append]; tauto)
                  · exact Or.inl (by simp only [allVarIds, List.mem_append]; tauto)
                  · exact Or.inl (by simp only [allVarIds, List.mem_append]; tauto)
                  · exact Or.inl (by simp only [allVarIds, List.mem_append]; tauto)
                  · rcases mem_flatMap_updateKey_deficit _ _ _ _ hx with hold | hnew
                    · exact Or.inl (by simp only [allVarIds, List.mem_append]; tauto)
                    · rcases List.mem_map.mp hnew with ⟨w, hw, rfl⟩
                      refine Or.inr
                        ⟨(deficitRows_fst_ids costed st.next_variable_id w hw).1, ?_⟩
                      have hle := le_maxOfIds
                        (List.mem_map_of_mem (fun v => v.variable_id) hw)
                      simp only [] at hle
                      show w.variable_id <
                        maxOfIds ((deficitRows costed st.next_variable_id).1.map
                          (fun v => v.variable_id)) + 1
                      omega

/-- Every embedded builder call keeps both id counters non-decreasing and
creates ids only at or above the old counter and below the new one. -/
theorem stepOp_ids (st : Market) (op : BuilderOp) : StepIdFacts st (stepOp st op).1 := by
  cases op with
  | setUnitInfo u => exact stepIdFacts_refl st
  | setUnitVolumeBids vb => exact set_unit_volume_bids_ids st vb
  | setUnitPriceBids pb => exact set_unit_price_bids_ids st pb
  | setJointCapacityConstraints ct => exact set_joint_capacity_constraints_ids st ct
  | setEnergyAndRegulationCapacityConstraints rt =>
      exact set_energy_and_regulation_capacity_constraints_ids st rt
  | setGenericConstraints g => exact set_generic_constraints_ids st g
  | setInterconnectors rows => exact set_interconnectors_ids st rows
  | setInterconnectorLosses lf bp => exact set_interconnector_losses_ids st lf bp
  | makeConstraintsElastic key vc => exact make_constraints_elastic_ids st key vc

theorem stepIdFacts_inv {st st' : Market} (h : StepIdFacts st st') (hinv : IdInv st) :
    IdInv st' := by
  refine ⟨?_, ?_⟩
  · intro x hx
    rcases h.2.2.1 x hx with hold | ⟨_, hlt⟩
    · exact lt_of_lt_of_le (hinv.1 x hold) h.1
    · exact hlt
  · intro x hx
    rcases h.2.2.2 x hx with hold | ⟨_, hlt⟩
    · exact lt_of_lt_of_le (hinv.2 x hold) h.2.1
    · exact hlt

theorem runOps_nv_mono (st : Market) (ops : List BuilderOp) :
    st.next_variable_id ≤ (runOps st ops).next_variable_id := by
  induction ops generalizing st with
  | nil => exact Nat.le_refl _
  | cons op ops ih =>
      exact le_trans (stepOp_ids st op).1 (ih (stepOp st op).1)

theorem runOps_nc_mono (st : Market) (ops : List BuilderOp) :
    st.next_constraint_id ≤ (runOps st ops).next_constraint_id := by
  induction ops generalizing st with
  | nil => exact Nat.le_refl _
  | cons op ops ih =>
      exact le_trans (stepOp_ids st op).2.1 (ih (stepOp st op).1)

theorem runOps_inv (st : Market) (ops : List BuilderOp) (h : IdInv st) :
    IdInv (runOps st ops) := by
  induction ops generalizing st with
  | nil => exact h
  | cons op ops ih => exact ih (stepOp st op).1 (stepIdFacts_inv (stepOp_ids st op) h)

/-- **C5**: across any sequence of builder calls on one market whose id
counters dominate its tables (true of a fresh `Spot`), variable ids and
constraint ids are strictly increasing: any id of the respective kind newly
created by a later call is strictly greater than every id present after an
earlier call — so no id is ever freed or reused within one build. -/
theorem ids_strictly_increase_across_calls (st0 : Market) (h0 : IdInv st0)
    (pre mid : List BuilderOp) (op1 op2 : BuilderOp) :
    (∀ v1 ∈ allVarIds (stepOp (runOps st0 pre) op1).1,
      ∀ v2 ∈ allVarIds (stepOp (runOps (stepOp (runOps st0 pre) op1).1 mid) op2).1,
        v2 ∉ allVarIds (runOps (stepOp (runOps st0 pre) op1).1 mid) → v1 < v2) ∧
    (∀ c1 ∈ allConstraintIds (stepOp (runOps st0 pre) op1).1,
      ∀ c2 ∈ allConstraintIds (stepOp (runOps (stepOp (runOps st0 pre) op1).1 mid) op2).1,
        c2 ∉ allConstraintIds (runOps (stepOp (runOps st0 pre) op1).1 mid) → c1 < c2) := by
  have hA : IdInv (runOps st0 pre) := runOps_inv st0 pre h0
  have hB : IdInv (stepOp (runOps st0 pre) op1).1 :=
    stepIdFacts_inv (stepOp_ids _ op1) hA
  constructor
  · intro v1 hv1 v2 hv2 hnot
    have h1 : v1 < (stepOp (runOps st0 pre) op1).1.next_variable_id := hB.1 v1 hv1
    have h2 := runOps_nv_mono (stepOp (runOps st0 pre) op1).1 mid
    rcases (stepOp_ids (runOps (stepOp (runOps st0 pre) op1).1 mid) op2).2.2.1 v2 hv2 with
      hold | ⟨hge, _⟩
    · exact absurd hold hnot
    · omega
  · intro c1 hc1 c2 hc2 hnot
    have h1 : c1 < (stepOp (runOps st0 pre) op1).1.next_constraint_id := hB.2 c1 hc1
    have h2 := runOps_nc_mono (stepOp (runOps st0 pre) op1).1 mid
    rcases (stepOp_ids (runOps (stepOp (runOps st0 pre) op1).1 mid) op2).2.2.2 c2 hc2 with
      hold | ⟨hge, _⟩
    · exact absurd hold hnot
    · omega

/-- The two set-up calls of the witness build: unit info, then volume bids
(variable id 0). -/
def demoPre : List BuilderOp :=
  [BuilderOp.setUnitInfo demoUnitInfo, BuilderOp.setUnitVolumeBids demoVolumeBids]

/-- The witness build after the generic constraints call (ids 0 and 1). -/
def demoStB : Market :=
  (stepOp (runOps freshMarket demoPre) (BuilderOp.setGenericConstraints demoGenericRows)).1

/-- The witness build after the elastic call (deficit variable ids 1, 2). -/
def demoStD : Market :=
  (stepOp demoStB (BuilderOp.makeConstraintsElastic "generic" ViolationCost.ceiling)).1

theorem freshMarket_IdInv : IdInv freshMarket := by
  refine ⟨?_, ?_⟩ <;> intro x hx <;>
    simp [allVarIds, allConstraintIds, freshMarket] at hx

/-- Witness for **C5**: the bid variable id 0 created by an early call is
strictly below the deficit variable id 1 created by the later elastic
call. -/
theorem ids_strictly_increase_across_calls_witness :
    IdInv freshMarket ∧ 0 ∈ allVarIds demoStB ∧ 1 ∈ allVarIds demoStD ∧
    1 ∉ allVarIds demoStB ∧ 0 < 1 :=
  ⟨freshMarket_IdInv, by decide, by decide, by decide,
   (ids_strictly_increase_across_calls freshMarket freshMarket_IdInv demoPre []
     (BuilderOp.setGenericConstraints demoGenericRows)
     (BuilderOp.makeConstraintsElastic "generic" ViolationCost.ceiling)).1
     0 (by decide) 1 (by decide) (by decide)⟩

theorem mem_fcas_variable_slack (families : List (List CoeffRow × List SlackRow))
    (e : ServiceSlackEntry) :
    e ∈ fcas_variable_slack families ↔
      ∃ f ∈ families, ∃ c ∈ f.1, ∃ sl ∈ f.2, sl.constraint_id = c.constraint_id ∧
        e = ⟨c.unit, c.service, sl.slack / |c.coefficient|⟩ := by
  unfold fcas_variable_slack
  constructor
  · intro h
    rcases List.mem_flatMap.mp h with ⟨f, hf, h2⟩
    rcases List.mem_flatMap.mp h2 with ⟨c, hc, h3⟩
    rcases List.mem_map.mp h3 with ⟨sl, hsl, hsle⟩
    rcases List.mem_filter.mp hsl with ⟨hsl2, hcid⟩
    exact ⟨f, hf, c, hc, sl, hsl2, by simpa using hcid, hsle.symm⟩
  · rintro ⟨f, hf, c, hc, sl, hsl, hcid, rfl⟩
    refine List.mem_flatMap.mpr ⟨f, hf, ?_⟩
    refine List.mem_flatMap.mpr ⟨c, hc, ?_⟩
    exact List.mem_map.mpr ⟨sl, List.mem_filter.mpr ⟨hsl, by simpa using hcid⟩, rfl⟩

/-- **C8**: for every unit `u` and non-energy service `s` governed by at least
one constraint of the present families (`fcas_max_availability`,
`joint_ramping`, `joint_capacity`, `energy_and_regulation_capacity`), and
dispatched at `dv`, `get_fcas_availability` reports availability `dv + m`
where `m` is at most every governing constraint's slack over the absolute
value of the service's coefficient, and equals one of those ratios — i.e.
`m` is the minimum of slack over absolute coefficient across the governing
constraints. -/
theorem get_fcas_availability_correct
    (families : List (List CoeffRow × List SlackRow)) (dispatch : List DispatchRow)
    (u s : String) (dv : ℚ) (hs : ¬ s = "energy")
    (hd : dispatch.filter (fun d => d.unit = u ∧ d.service = s) = [⟨u, s, dv⟩])
    (hg : ∃ e ∈ fcas_variable_slack families, e.unit = u ∧ e.service = s) :
    ∃ m, (⟨u, s, dv + m⟩ : AvailRow) ∈ get_fcas_availability families dispatch ∧
      (∀ f ∈ families, ∀ c ∈ f.1, ∀ sl ∈ f.2,
        sl.constraint_id = c.constraint_id → c.unit = u → c.service = s →
        m ≤ sl.slack / |c.coefficient|) ∧
      (∃ f ∈ families, ∃ c ∈ f.1, ∃ sl ∈ f.2,
        sl.constraint_id = c.constraint_id ∧ c.unit = u ∧ c.service = s ∧
        m = sl.slack / |c.coefficient|) := by
  classical
  set entries := fcas_variable_slack families with hent
  set filtered := entries.filter (fun e => (e.unit, e.service) = (u, s)) with hfil
  set lst := filtered.map (fun e => e.service_slack) with hlst
  refine ⟨minOfList lst, ?_, ?_, ?_⟩
  · rcases hg with ⟨e0, he0, hu0, hs0⟩
    have he0f : e0 ∈ filtered := by
      rw [hfil]
      exact List.mem_filter.mpr ⟨he0, by simp [hu0, hs0]⟩
    have hkey : (u, s) ∈ keysOf (fun e : ServiceSlackEntry => (e.unit, e.service)) entries := by
      have h1 := mem_keysOf_of_mem (fun e : ServiceSlackEntry => (e.unit, e.service)) entries e0 he0
      simp only [] at h1
      rw [hu0, hs0] at h1
      exact h1
    have hgrp : ((u, s), minOfList lst) ∈
        (keysOf (fun e : ServiceSlackEntry => (e.unit, e.service)) entries).map
          (fun k => (k, minOfList ((entries.filter (fun e => (e.unit, e.service) = k)).map
            (fun e => e.service_slack)))) := by
      have h2 := List.mem_map_of_mem (fun k => (k, minOfList ((entries.filter
        (fun e => (e.unit, e.service) = k)).map (fun e => e.service_slack)))) hkey
      rw [hlst, hfil]
      exact h2
    have hne2 : ((u, s), minOfList lst) ∈
        ((keysOf (fun e : ServiceSlackEntry => (e.unit, e.service)) entries).map
          (fun k => (k, minOfList ((entries.filter (fun e => (e.unit, e.service) = k)).map
            (fun e => e.service_slack))))).filter (fun g => ¬ g.1.2 = "energy") :=
      List.mem_filter.mpr ⟨hgrp, by simp only [decide_eq_true_eq]; exact hs⟩
    unfold get_fcas_availability
    simp only []
    rw [← hent]
    refine List.mem_flatMap.mpr ⟨((u, s), minOfList lst), hne2, ?_⟩
    show (⟨u, s, dv + minOfList lst⟩ : AvailRow) ∈
      (dispatch.filter (fun d => d.unit = u ∧ d.service = s)).map
        (fun d => ⟨d.unit, d.service, d.dispatch + minOfList lst⟩)
    rw [hd]
    simp
  · intro f hf c hc sl hsl hcid hcu hcs
    have hmem : (⟨c.unit, c.service, sl.slack / |c.coefficient|⟩ : ServiceSlackEntry) ∈ entries := by
      rw [hent]
      exact (mem_fcas_variable_slack families _).mpr ⟨f, hf, c, hc, sl, hsl, hcid, rfl⟩
    have hmf : (⟨c.unit, c.service, sl.slack / |c.coefficient|⟩ : ServiceSlackEntry) ∈ filtered := by
      rw [hfil]
      exact List.mem_filter.mpr ⟨hmem, by simp [hcu, hcs]⟩
    have hle := minOfList_le
      (List.mem_map_of_mem (fun e : ServiceSlackEntry => e.service_slack) hmf)
    rw [hlst]
    exact hle
  · have hfilne : filtered ≠ [] := by
      rcases hg with ⟨e0, he0, hu0, hs0⟩
      have he0f : e0 ∈ filtered := by
        rw [hfil]
        exact List.mem_filter.mpr ⟨he0, by simp [hu0, hs0]⟩
      exact List.ne_nil_of_mem he0f
    have hglist : lst ≠ [] := by
      rw [hlst]
      simp [hfilne]
    have hmm := minOfList_mem hglist
    nth_rewrite 2 [hlst] at hmm
    rcases List.mem_map.mp hmm with ⟨e2, he2f, he2v⟩
    rw [hfil] at he2f
    rcases List.mem_filter.mp he2f with ⟨he2e, hkey2⟩
    rw [hent] at he2e
    rcases (mem_fcas_variable_slack families e2).mp he2e with
      ⟨f, hf, c, hc, sl, hsl, hcid, he2eq⟩
    have hk2 : (e2.unit, e2.service) = (u, s) := by simpa using hkey2
    rw [he2eq] at hk2
    have hcu : c.unit = u := congrArg Prod.fst hk2
    have hcs : c.service = s := congrArg Prod.snd hk2
    refine ⟨f, hf, c, hc, sl, hsl, hcid, hcu, hcs, ?_⟩
    rw [← he2v, he2eq]

def demoFcasFamilies : List (List CoeffRow × List SlackRow) :=
  [([⟨0, "A", "raise_6s", 2⟩], [⟨0, 10⟩])]

def demoFcasDispatch : List DispatchRow := [⟨"A", "raise_6s", 5⟩]

/-- Witness for **C8** at one family holding one constraint that governs
unit `A`'s `raise_6s` service with coefficient 2 and slack 10, and dispatch
level 5. -/
theorem get_fcas_availability_correct_witness :
    (¬ "raise_6s" = "energy") ∧
    (demoFcasDispatch.filter (fun d => d.unit = "A" ∧ d.service = "raise_6s")
      = [⟨"A", "raise_6s", 5⟩]) ∧
    (∃ e ∈ fcas_variable_slack demoFcasFamilies,
      e.unit = "A" ∧ e.service = "raise_6s") ∧
    ∃ m, (⟨"A", "raise_6s", 5 + m⟩ : AvailRow) ∈
        get_fcas_availability demoFcasFamilies demoFcasDispatch ∧
      (∀ f ∈ demoFcasFamilies, ∀ c ∈ f.1, ∀ sl ∈ f.2,
        sl.constraint_id = c.constraint_id → c.unit = "A" → c.service = "raise_6s" →
        m ≤ sl.slack / |c.coefficient|) ∧
      (∃ f ∈ demoFcasFamilies, ∃ c ∈ f.1, ∃ sl ∈ f.2,
        sl.constraint_id = c.constraint_id ∧ c.unit = "A" ∧ c.service = "raise_6s" ∧
        m = sl.slack / |c.coefficient|) := by
  have hg : ∃ e ∈ fcas_variable_slack demoFcasFamilies,
      e.unit = "A" ∧ e.service = "raise_6s" := by
    refine ⟨⟨"A", "raise_6s", (10 : ℚ) / |(2 : ℚ)|⟩, ?_, rfl, rfl⟩
    show (⟨"A", "raise_6s", (10 : ℚ) / |(2 : ℚ)|⟩ : ServiceSlackEntry)
      ∈ [(⟨"A", "raise_6s", (10 : ℚ) / |(2 : ℚ)|⟩ : ServiceSlackEntry)]
    exact List.mem_cons_self _ _
  exact ⟨by decide, rfl, hg,
    get_fcas_availability_correct demoFcasFamilies demoFcasDispatch "A" "raise_6s" 5
      (by decide) rfl hg⟩

end Nempy
